import Mathlib

/-!
# Verification of the RepoCoder incremental indexer and query-routing engine

This file gives a shallow embedding, in Lean 4, of the core of the RepoCoder
repository: the persistent incremental indexer (`persistent_indexer.py`), the
fallback indexer (`indexer.py`), the core indexer and context retriever
(`core/indexer.py`, `core/context_retriever.py`), and the pattern-based query
router and multi-intent handler (`core/query_router.py`,
`core/multi_intent_handler.py`).  Each Python function is translated into an
executable Lean definition; theorems about those definitions settle the
spec claims.

Conventions used throughout:
* Python dicts keyed by strings are modelled as association lists with
  dict semantics (update-in-place keeps position, new keys append at the end).
* Machine floats appearing only in comparisons or exact small-integer
  arithmetic (similarity scores, 5.0/3.0/2.0 boosts) are modelled as `Int`;
  the claims under study only depend on ordering, which agrees.
* External collaborators (the sentence-transformer embedder, the ShibuDB
  server) are opaque: the embedder is a function parameter, the database
  search is a result-list parameter.  Everything the repository's own code
  does around them is modelled faithfully.
* Code that raises is modelled with `Except`; code that loops is modelled
  with explicit fuel, with `none` denoting non-termination.
-/

/-! ## Association lists with Python-dict semantics -/

/-- Lookup in an association list (first binding wins, as in a dict). -/
def alGet {α β : Type} [DecidableEq α] (k : α) : List (α × β) → Option β
  | [] => none
  | (a, b) :: rest => if a = k then some b else alGet k rest

/-- Remove every binding of a key (`del d[k]` / store delete). -/
def alErase {α β : Type} [DecidableEq α] (k : α) : List (α × β) → List (α × β)
  | [] => []
  | (a, b) :: rest => if a = k then alErase k rest else (a, b) :: alErase k rest

/-- Python-dict update: an existing key keeps its position (its first binding
is overwritten), a new key is appended at the end. -/
def alPut {α β : Type} [DecidableEq α] (k : α) (v : β) :
    List (α × β) → List (α × β)
  | [] => [(k, v)]
  | (a, b) :: rest => if a = k then (k, v) :: rest else (a, b) :: alPut k v rest

/-- The keys of an association list, in order. -/
def alKeys {α β : Type} (l : List (α × β)) : List α := l.map (·.1)

/-! ## A small regex engine

`core/query_router.py` and `core/multi_intent_handler.py` route queries with
`re.search` over a fixed set of patterns.  Every pattern used there is a
sequence of literal characters, `.*`, a single optional character (`s?`) and
word boundaries (`\b`), so we embed exactly that fragment, with Python
semantics: `.` matches any character except a newline, `\b` matches between a
word character (`[A-Za-z0-9_]`) and a non-word character or string edge. -/

inductive RTok : Type
  | lit : Char → RTok
  | dotStar : RTok
  | opt : Char → RTok
  | wb : RTok
deriving DecidableEq

/-- Word characters, Python `\w` for ASCII queries. -/
def isWordChar (c : Char) : Bool := c.isAlphanum || c = '_'

def isWordOpt : Option Char → Bool
  | none => false
  | some c => isWordChar c

/-- Embeds `\b`: the previous character and the next character disagree on
word-ness (string edges count as non-word). -/
def atBoundary (prev : Option Char) (rest : List Char) : Bool :=
  isWordOpt prev != isWordOpt rest.head?

/-- Split points reachable by `.*` from `(prev, rest)`: zero or more
non-newline characters are consumed. -/
def dotStarSplits (prev : Option Char) : List Char → List (Option Char × List Char)
  | [] => [(prev, [])]
  | c :: rest =>
    (prev, c :: rest) :: (if c = '\n' then [] else dotStarSplits (some c) rest)

/-- Match a token sequence against `rest`, knowing the character just before
the match position. -/
def matchToks : List RTok → Option Char → List Char → Bool
  | [], _, _ => true
  | RTok.lit c :: ts, _, r :: rest => r = c && matchToks ts (some r) rest
  | RTok.lit _ :: _, _, [] => false
  | RTok.opt c :: ts, prev, rest =>
    (match rest with
     | r :: rest2 => r = c && matchToks ts (some r) rest2
     | [] => false)
    || matchToks ts prev rest
  | RTok.wb :: ts, prev, rest => atBoundary prev rest && matchToks ts prev rest
  | RTok.dotStar :: ts, prev, rest =>
    (dotStarSplits prev rest).any (fun pr => matchToks ts pr.1 pr.2)

/-- Embeds `re.search`: try every start position. -/
def searchFrom (p : List RTok) : Option Char → List Char → Bool
  | prev, l =>
    matchToks p prev l ||
      (match l with
       | c :: rest => searchFrom p (some c) rest
       | [] => false)

def reSearch (p : List RTok) (s : String) : Bool := searchFrom p none s.toList

/-- Literal characters of a pattern fragment. -/
def lits (s : String) : List RTok := s.toList.map RTok.lit

/-! ## Query analysis and routing data (`core/types.py`, `core/query_router.py`) -/

/-- Embeds `FileReference` (`core/types.py`), reduced to the fields the router and
retriever read. -/
structure FileReference where
  filename : String
deriving DecidableEq, Repr

/-- Embeds `QueryAnalysis` (`core/types.py`), reduced to the fields read by
`QueryRouter.route`, `MultiIntentHandler.detect_multi_intent` and
`ContextRetriever.retrieve`.  `normalized_query` is
`query.lower().strip()` as computed by `QueryAnalyzer.analyze`. -/
structure QueryAnalysis where
  original_query : String
  normalized_query : String
  file_references : List FileReference
  intent : String
deriving DecidableEq, Repr

/-- Embeds `RoutingDecision` dict returned by `QueryRouter.route`. -/
structure RoutingDecision where
  strategy : String
  needs_code : Bool
  needs_metadata : Bool
  can_compute_directly : Bool
  reasoning : String
deriving DecidableEq, Repr

/-- Embeds `QueryRouter.metadata_patterns` (`core/query_router.py`). -/
def metadataPatterns : List (List RTok) :=
  [ [RTok.wb] ++ lits "how many" ++ [RTok.dotStar] ++ lits "file" ++ [RTok.opt 's', RTok.wb]
  , [RTok.wb] ++ lits "count" ++ [RTok.dotStar] ++ lits "file" ++ [RTok.opt 's', RTok.wb]
  , [RTok.wb] ++ lits "list" ++ [RTok.dotStar] ++ lits "file" ++ [RTok.opt 's', RTok.wb]
  , [RTok.wb] ++ lits "what" ++ [RTok.dotStar] ++ lits "file" ++ [RTok.opt 's', RTok.wb]
  , [RTok.wb] ++ lits "how many" ++ [RTok.dotStar] ++ lits "line" ++ [RTok.opt 's', RTok.wb]
  , [RTok.wb] ++ lits "count" ++ [RTok.dotStar] ++ lits "line" ++ [RTok.opt 's', RTok.wb]
  , [RTok.wb] ++ lits "project" ++ [RTok.dotStar] ++ lits "size" ++ [RTok.wb]
  , [RTok.wb] ++ lits "repository" ++ [RTok.dotStar] ++ lits "size" ++ [RTok.wb]
  , [RTok.wb] ++ lits "what" ++ [RTok.dotStar] ++ lits "language" ++ [RTok.opt 's', RTok.wb]
  , [RTok.wb] ++ lits "how many" ++ [RTok.dotStar] ++ lits "language" ++ [RTok.opt 's', RTok.wb]
  , [RTok.wb] ++ lits "file" ++ [RTok.dotStar] ++ lits "type" ++ [RTok.opt 's', RTok.wb]
  , [RTok.wb] ++ lits "project" ++ [RTok.dotStar] ++ lits "structure" ++ [RTok.wb]
  , [RTok.wb] ++ lits "directory" ++ [RTok.dotStar] ++ lits "structure" ++ [RTok.wb] ]

/-- Embeds `QueryRouter.structure_patterns`. -/
def structurePatterns : List (List RTok) :=
  [ [RTok.wb] ++ lits "project" ++ [RTok.dotStar] ++ lits "organization" ++ [RTok.wb]
  , [RTok.wb] ++ lits "file" ++ [RTok.dotStar] ++ lits "organization" ++ [RTok.wb]
  , [RTok.wb] ++ lits "where" ++ [RTok.dotStar] ++ lits "is" ++ [RTok.dotStar] ++ lits "located" ++ [RTok.wb]
  , [RTok.wb] ++ lits "find" ++ [RTok.dotStar] ++ lits "file" ++ [RTok.wb]
  , [RTok.wb] ++ lits "which" ++ [RTok.dotStar] ++ lits "directory" ++ [RTok.wb] ]

/-- Embeds `QueryRouter.computation_patterns`. -/
def computationPatterns : List (List RTok) :=
  [ [RTok.wb] ++ lits "how many" ++ [RTok.wb]
  , [RTok.wb] ++ lits "count" ++ [RTok.wb]
  , [RTok.wb] ++ lits "total" ++ [RTok.wb]
  , [RTok.wb] ++ lits "sum" ++ [RTok.wb]
  , [RTok.wb] ++ lits "average" ++ [RTok.wb] ]

def isMetadataQuery (q : String) : Bool := metadataPatterns.any (reSearch · q)

def isStructureQuery (q : String) : Bool := structurePatterns.any (reSearch · q)

def isComputationQuery (q : String) : Bool := computationPatterns.any (reSearch · q)

/-- Embeds `QueryRouter.route` (`core/query_router.py`, lines 70-145): first match
wins, in the order metadata → structure → computation → file references →
semantic default. -/
def route (qa : QueryAnalysis) : RoutingDecision :=
  let q := qa.normalized_query
  if isMetadataQuery q then
    ⟨"metadata", false, true, true, "Query asks for repository metadata/statistics"⟩
  else if isStructureQuery q then
    ⟨"structure", false, true, false, "Query asks about project structure"⟩
  else if isComputationQuery q then
    ⟨"metadata", false, true, true, "Query needs simple computation from metadata"⟩
  else if qa.file_references ≠ [] then
    ⟨"file_specific", true, false, false, "User mentioned specific file(s)"⟩
  else
    ⟨"semantic", true, false, false, "General code query, using semantic search"⟩

/-- Embeds `MultiIntentHandler.conjunction_words`. -/
def conjunctionWords : List (List RTok) :=
  [ [RTok.wb] ++ lits "and" ++ [RTok.wb]
  , [RTok.wb] ++ lits "also" ++ [RTok.wb]
  , [RTok.wb] ++ lits "then" ++ [RTok.wb]
  , [RTok.wb] ++ lits "plus" ++ [RTok.wb]
  , [RTok.wb] ++ lits "after that" ++ [RTok.wb]
  , [RTok.wb] ++ lits "additionally" ++ [RTok.wb] ]

/-- Embeds `MultiIntentHandler.intent_indicators`, in dict insertion order
(metadata, code, structure). -/
def intentIndicators : List (String × List (List RTok)) :=
  [ ("metadata",
     [ lits "how many", lits "count", lits "list"
     , lits "what" ++ [RTok.dotStar] ++ lits "files"
     , lits "what" ++ [RTok.dotStar] ++ lits "languages"
     , lits "project" ++ [RTok.dotStar] ++ lits "size" ])
  , ("code",
     [ lits "how" ++ [RTok.dotStar] ++ lits "work"
     , lits "explain", lits "analyze"
     , lits "show" ++ [RTok.dotStar] ++ lits "code"
     , lits "implement", lits "fix", lits "debug", lits "review" ])
  , ("structure",
     [ lits "structure", lits "organization"
     , lits "where" ++ [RTok.dotStar] ++ lits "located"
     , lits "find" ++ [RTok.dotStar] ++ lits "file"
     , lits "directory" ]) ]

/-- Embeds `MultiIntentHandler.detect_multi_intent` (`core/multi_intent_handler.py`,
lines 56-88): requires a conjunction word, then collects every intent category
with at least one matching indicator; multi-intent iff at least two. -/
def detectMultiIntent (qa : QueryAnalysis) : Bool × List String :=
  let q := qa.normalized_query
  if !(conjunctionWords.any (reSearch · q)) then (false, [])
  else
    let detected := (intentIndicators.filter
      (fun ip => ip.2.any (reSearch · q))).map (·.1)
    (detected.length > 1, detected)

/-! ## The character-window chunker (`persistent_indexer._index_file`,
`indexer.RepoIndexer._chunk_text`)

Both files contain the same loop: take `text[i : i+max_chunk_chars]`, keep the
piece when it has non-whitespace, stop when the window reaches the end,
otherwise restart at `i = max(j - overlap, 0)`.  The loop is modelled with
explicit fuel; `none` means the fuel ran out, which (as proved below) happens
for unbounded fuel exactly in the parameter regime where the Python loop does
not terminate. -/

/-- Embeds `Chunk` dataclass (`indexer.py`); `end` is renamed `stop`. -/
structure Chunk where
  path : String
  start : Nat
  stop : Nat
  text : List Char
deriving DecidableEq, Repr

def chunkLoopFuel (path : String) (maxC overlap : Nat) (text : List Char) :
    Nat → Nat → Option (List Chunk)
  | 0, _ => none
  | fuel + 1, i =>
    if i < text.length then
      let j := min (i + maxC) text.length
      let piece := (text.drop i).take (j - i)
      let here := if piece.any (fun c => !c.isWhitespace) then
        [Chunk.mk path i j piece] else []
      if text.length ≤ j then some here
      else
        -- i = max(j - overlap, 0): truncated subtraction on Nat
        let i2 := j - overlap
        if text.length ≤ i2 then some here
        else (chunkLoopFuel path maxC overlap text fuel i2).map (here ++ ·)
    else some []

/-- Embeds `PersistentRepoIndexer._index_file`: empty-after-strip text yields no
chunks, otherwise the window loop runs (fuel `|text|+1` suffices whenever
`overlap < maxC`, see `chunkLoopFuel` theorems below). -/
def indexFile (maxC overlap : Nat) (path : String) (text : List Char) :
    List Chunk :=
  if !text.any (fun c => !c.isWhitespace) then []
  else (chunkLoopFuel path maxC overlap text (text.length + 1) 0).getD []

/-! ## The line-based chunker (`core/indexer.CoreIndexer._chunk_text`) -/

/-- Embeds `CodeChunk` (`core/types.py`), minus the embedding/metadata payload not
read by any claim; `content` is the `'\n'.join` of the accumulated lines. -/
structure CodeChunk where
  id : String
  file_path : String
  start_line : Nat
  end_line : Nat
  content : List Char
  language : String
deriving DecidableEq, Repr

def joinLines (ls : List (List Char)) : List Char := (ls.intersperse ['\n']).flatten

/-- Embeds `max(1, overlap // 50)`: the approximate line count the source uses to
seed the next chunk. -/
def overlapLineCount (overlap : Nat) : Nat := max 1 (overlap / 50)

/-- The seed the source carries into the next chunk:
`current_chunk[-overlap_lines:] if len(current_chunk) > overlap_lines else []`. -/
def overlapSeed (overlap : Nat) (cur : List (List Char)) : List (List Char) :=
  if overlapLineCount overlap < cur.length then
    cur.drop (cur.length - overlapLineCount overlap)
  else []

def chunkTextGo (chunkSize overlap : Nat) (fp lang : String) (total : Nat) :
    List (List Char) → Nat → List (List Char) → Nat → Nat → List CodeChunk →
      List CodeChunk
  | [], _, cur, _, startL, acc =>
    acc ++ (if cur ≠ [] then [⟨"", fp, startL, total, joinLines cur, lang⟩] else [])
  | line :: rest, i, cur, curSize, startL, acc =>
    let lineSize := line.length + 1
    if chunkSize < curSize + lineSize ∧ cur ≠ [] then
      let newCur := overlapSeed overlap cur
      let newSize := (newCur.map (fun l => l.length + 1)).sum
      chunkTextGo chunkSize overlap fp lang total rest (i + 1)
        (newCur ++ [line]) (newSize + lineSize) (i - newCur.length)
        (acc ++ [⟨"", fp, startL, i, joinLines cur, lang⟩])
    else
      chunkTextGo chunkSize overlap fp lang total rest (i + 1)
        (cur ++ [line]) (curSize + lineSize) startL acc

/-- Embeds `CoreIndexer._chunk_text` (`core/indexer.py`, lines 157-207): split on
newlines, accumulate lines until the next one would overflow `chunk_size`,
close the chunk and seed the next with `overlapSeed`; always flush the final
buffer. -/
def chunkTextCore (chunkSize overlap : Nat) (fp lang : String)
    (text : List Char) : List CodeChunk :=
  let lines := text.splitOn '\n'
  chunkTextGo chunkSize overlap fp lang lines.length lines 0 [] 0 0 []

/-- The lines of a stored chunk content (inverse of `joinLines`; the lines fed
to `joinLines` never contain a newline, so this is exact). -/
def linesOfContent (c : List Char) : List (List Char) := c.splitOn '\n'

/-- The overlap property claimed by spec §4.2 for a consecutive chunk pair:
the later chunk begins with a nonempty proper suffix of the earlier chunk's
lines whose cumulative size (each line counted with its newline) is at most
`overlap_chars`. -/
def specSeedOk (overlap : Nat) (prev next : List Char) : Bool :=
  (linesOfContent prev).tails.any (fun t =>
    !t.isEmpty && decide (t.length < (linesOfContent prev).length) &&
      decide ((t.map (fun l => l.length + 1)).sum ≤ overlap) &&
      t.isPrefixOf (linesOfContent next))

/-! ## Similarity, sorting, retrieval (`indexer.py`, `core/context_retriever.py`) -/

/-- Embedding vectors; similarity scores only ever feed comparisons and exact
small multiplications, so integer components model the float arithmetic
faithfully for every claim below. -/
abbrev Vec := List Int

def dot (a b : Vec) : Int := (List.zipWith (· * ·) a b).sum

/-- Python `list.sort(key=lambda x: x[0], reverse=True)` on `(score, index)`
pairs, as used in `ContextRetriever._retrieve_semantic`: a stable descending
sort by score alone.  A stable sort of pairs whose second components are
strictly increasing is exactly the sort by this total order (score
descending, position ascending on ties). -/
def simKeyGe (p q : Int × Nat) : Prop := q.1 < p.1 ∨ (p.1 = q.1 ∧ p.2 ≤ q.2)

/-- Python `list.sort(reverse=True)` on `(score, index)` tuples, as used in
`RepoIndexer.retrieve` and `retrieve_with_filename_boost`: descending
lexicographic comparison, so equal scores order by descending index. -/
def tupleGe (p q : Int × Nat) : Prop := q.1 < p.1 ∨ (p.1 = q.1 ∧ q.2 ≤ p.2)

instance : DecidableRel simKeyGe := fun p q =>
  inferInstanceAs (Decidable (q.1 < p.1 ∨ (p.1 = q.1 ∧ p.2 ≤ q.2)))

instance : DecidableRel tupleGe := fun p q =>
  inferInstanceAs (Decidable (q.1 < p.1 ∨ (p.1 = q.1 ∧ q.2 ≤ p.2)))

instance : IsTotal (Int × Nat) simKeyGe where
  total p q := by
    rcases lt_trichotomy p.1 q.1 with h | h | h
    · exact Or.inr (Or.inl h)
    · rcases le_total p.2 q.2 with h2 | h2
      · exact Or.inl (Or.inr ⟨h, h2⟩)
      · exact Or.inr (Or.inr ⟨h.symm, h2⟩)
    · exact Or.inl (Or.inl h)

instance : IsTotal (Int × Nat) tupleGe where
  total p q := by
    rcases lt_trichotomy p.1 q.1 with h | h | h
    · exact Or.inr (Or.inl h)
    · rcases le_total p.2 q.2 with h2 | h2
      · exact Or.inr (Or.inr ⟨h.symm, h2⟩)
      · exact Or.inl (Or.inr ⟨h, h2⟩)
    · exact Or.inl (Or.inl h)

instance : IsTrans (Int × Nat) simKeyGe where
  trans p q r hpq hqr := by
    rcases hpq with h1 | ⟨e1, l1⟩
    · rcases hqr with h2 | ⟨e2, _⟩
      · exact Or.inl (h2.trans h1)
      · exact Or.inl (e2 ▸ h1)
    · rcases hqr with h2 | ⟨e2, l2⟩
      · exact Or.inl (e1 ▸ h2)
      · exact Or.inr ⟨e1.trans e2, l1.trans l2⟩

instance : IsTrans (Int × Nat) tupleGe where
  trans p q r hpq hqr := by
    rcases hpq with h1 | ⟨e1, l1⟩
    · rcases hqr with h2 | ⟨e2, _⟩
      · exact Or.inl (h2.trans h1)
      · exact Or.inl (e2 ▸ h1)
    · rcases hqr with h2 | ⟨e2, l2⟩
      · exact Or.inl (e1 ▸ h2)
      · exact Or.inr ⟨e1.trans e2, l2.trans l1⟩

/-- The `(similarity, i)` pairs built by `for i, emb in enumerate(…)`. -/
def semanticSims (q : Vec) (embs : List Vec) : List (Int × Nat) :=
  (List.range embs.length).map (fun i => (dot q (embs.getD i []), i))

/-- Index order produced by `ContextRetriever._retrieve_semantic`'s
`similarities.sort(reverse=True, key=lambda x: x[0])`. -/
def semanticOrder (q : Vec) (embs : List Vec) : List Nat :=
  (List.insertionSort simKeyGe (semanticSims q embs)).map (·.2)

/-- Embeds `ContextRetriever._retrieve_semantic` (`core/context_retriever.py`,
lines 111-133). -/
def retrieveSemantic (chunks : List CodeChunk) (embs : List Vec)
    (embedderSome : Bool) (q : Vec) (topK : Nat) : List CodeChunk :=
  if !embedderSome || embs.isEmpty then chunks.take topK
  else ((semanticOrder q embs).take topK).filterMap (fun i => chunks.get? i)

/-- Python `str.lower()` for the ASCII strings involved here (filenames,
queries); defined by list recursion so that proofs can evaluate it. -/
def charLower (c : Char) : Char :=
  if 'A' ≤ c ∧ c ≤ 'Z' then Char.ofNat (c.toNat + 32) else c

def strLower (s : String) : String := String.mk (s.toList.map charLower)

/-- Python `needle in hay` on strings. -/
def containsSub (needle hay : String) : Bool :=
  hay.toList.tails.any (needle.toList.isPrefixOf ·)

/-- Embeds `os.path.basename`: the segment after the last `/`. -/
def basename (p : String) : String :=
  String.mk (p.toList.foldl (fun acc c => if c = '/' then [] else acc ++ [c]) [])

/-- Embeds `FileNode` (`core/types.py`), claim-relevant fields. -/
structure FileNode where
  path : String
  name : String
  extension : String
  size : Nat
  language : Option String
  is_code : Bool
deriving DecidableEq, Repr

/-- The storage of `CoreIndexer` (`core/indexer.py`). -/
structure CoreIndexerState where
  file_tree : List FileNode
  chunks : List CodeChunk
  file_index : List (String × FileNode)
deriving Repr

/-- Embeds `CoreIndexer.get_file_by_name`: first tree node whose name matches
case-insensitively or whose path contains the filename. -/
def getFileByName (tree : List FileNode) (filename : String) : Option FileNode :=
  tree.find? (fun n =>
    strLower n.name == strLower filename ||
      containsSub (strLower filename) (strLower n.path))

/-- Embeds `CoreIndexer.get_chunks_by_file`. -/
def getChunksByFile (chunks : List CodeChunk) (path : String) : List CodeChunk :=
  chunks.filter (fun c => c.file_path == path)

/-- Embeds `ContextRetriever._retrieve_by_files`: gather chunks of each referenced
file (missing files skipped), truncate to `top_k`. -/
def retrieveByFiles (ind : CoreIndexerState) (refs : List FileReference)
    (topK : Nat) : List CodeChunk :=
  (refs.foldl (fun acc r =>
    match getFileByName ind.file_tree r.filename with
    | none => acc
    | some fn => acc ++ getChunksByFile ind.chunks fn.path) []).take topK

/-- Embeds `RetrievalContext` (`core/types.py`); the `metadata` dict is flattened to
its two entries. -/
structure RetrievalContext where
  chunks : List CodeChunk
  file_tree : List FileNode
  total_chunks : Nat
  strategy_used : String
  files_involved : Nat
  query_intent : String
deriving Repr

/-- Embeds `ContextRetriever.retrieve` (`core/context_retriever.py`, lines 57-91).
`list(set(...))` over the involved file paths iterates in an unspecified
order; first-occurrence order is used here (the claims below only concern
the empty index, where the set is empty). -/
def contextRetrieve (ind : CoreIndexerState) (chunkEmbeddings : List Vec)
    (embedderSome : Bool) (qEmb : Vec) (qa : QueryAnalysis) (topK : Nat) :
    RetrievalContext :=
  let pair :=
    if qa.file_references ≠ [] then
      (retrieveByFiles ind qa.file_references topK, "file_specific")
    else if chunkEmbeddings ≠ [] then
      (retrieveSemantic ind.chunks chunkEmbeddings embedderSome qEmb topK, "semantic")
    else (ind.chunks.take topK, "fallback")
  let chs := pair.1
  let filePaths := (chs.map (·.file_path)).dedup
  let ftree := filePaths.filterMap (fun p => alGet p ind.file_index)
  ⟨chs, ftree, chs.length, pair.2, ftree.length, qa.intent⟩

/-! ## The fallback `RepoIndexer` retrieval (`indexer.py`) -/

/-- The Cursor-style filename boost of `retrieve_with_filename_boost`:
5× on exact (case-insensitive) filename match, else 3× when the filename
contains the query, else 2× when the path contains the query. -/
def boostMul (q : String) (c : Chunk) (raw : Int) : Int :=
  if strLower (basename c.path) == strLower q then 5 * raw
  else if containsSub (strLower q) (strLower (basename c.path)) then 3 * raw
  else if containsSub (strLower q) (strLower c.path) then 2 * raw
  else raw

/-- Embeds `(boosted similarity, i)` pairs over the parallel `chunks`/`embeddings`
arrays (`for i, emb in enumerate(self.embeddings): chunk = self.chunks[i]`). -/
def boostSims (q : String) (qEmb : Vec) (chunks : List Chunk)
    (embs : List Vec) : List (Int × Nat) :=
  (List.range embs.length).map (fun i =>
    (boostMul q (chunks.getD i ⟨"", 0, 0, []⟩) (dot qEmb (embs.getD i [])), i))

/-- Index order after `similarities.sort(reverse=True)` in
`retrieve_with_filename_boost`. -/
def boostOrder (q : String) (qEmb : Vec) (chunks : List Chunk)
    (embs : List Vec) : List Nat :=
  (List.insertionSort tupleGe (boostSims q qEmb chunks embs)).map (·.2)

/-- Embeds `RepoIndexer.retrieve` (`indexer.py`, lines 104-123); raises
`RuntimeError` on an empty index. -/
def repoRetrieve (chunks : List Chunk) (embs : List Vec) (qEmb : Vec)
    (topK : Nat) : Except String (List Chunk) :=
  if embs.isEmpty then Except.error "Index is empty. Build it first."
  else
    let sims := (List.range embs.length).map
      (fun i => (dot qEmb (embs.getD i []), i))
    Except.ok (((List.insertionSort tupleGe sims).take topK).filterMap
      (fun p => chunks.get? p.2))

/-- Embeds `RepoIndexer.retrieve_with_filename_boost` (`indexer.py`, lines 152-184). -/
def repoRetrieveWithFilenameBoost (chunks : List Chunk) (embs : List Vec)
    (q : String) (qEmb : Vec) (topK : Nat) : Except String (List Chunk) :=
  if embs.isEmpty then Except.error "Index is empty. Build it first."
  else
    Except.ok (((boostOrder q qEmb chunks embs).take topK).filterMap
      (fun i => chunks.get? i))

/-- Embeds `RepoIndexer.retrieve_by_file` (`indexer.py`, lines 125-150). -/
def repoRetrieveByFile (chunks : List Chunk) (embs : List Vec)
    (filename : String) (qEmb : Vec) (topK : Nat) : Except String (List Chunk) :=
  if chunks.isEmpty then Except.error "Index is empty. Build it first."
  else
    let fl := strLower filename
    let fileChunks := chunks.filter (fun c =>
      strLower (basename c.path) == fl || containsSub fl (strLower c.path))
    if !fileChunks.isEmpty then Except.ok (fileChunks.take topK)
    else repoRetrieveWithFilenameBoost chunks embs filename qEmb topK

/-! ## The persistent incremental indexer (`persistent_indexer.py`)

The ShibuDB server is external; what is modelled is everything the
repository's own code does: the two logical spaces (`…_vectors` as an
id → vector table, `…_meta` as a key-value table holding per-file metadata,
the `file_metadata_list` manifest, per-chunk metadata and per-file chunk-id
lists), the change detector, deletion, chunk storage, and the `build`
orchestration.  Vector ids are md5-derived from `(path, start, end)` in the
source; they are modelled as that triple directly (deterministic and
collision-free, which is what the id derivation is for). -/

/-- Embeds `FileMetadata` dataclass (`persistent_indexer.py`, lines 24-32); the
`indexed_at` ISO timestamp is a number here. -/
structure FileMetadata where
  path : String
  size : Nat
  mtime : Nat
  hash : Nat
  indexed_at : Nat
  chunk_count : Nat
deriving DecidableEq, Repr

/-- A file of the current tree, as seen by the scanner: its stat fingerprint
(`size`, `mtime`), the md5 of its content (`hash`), and its text.  Only files
passing `_should_index` appear. -/
structure FsFile where
  path : String
  size : Nat
  mtime : Nat
  hash : Nat
  text : List Char
deriving DecidableEq, Repr

/-- Deterministic chunk/vector identifier derived from `(path, start, end)`
(`_store_chunks_in_shibudb` derives it via md5 of that triple). -/
structure ChunkId where
  path : String
  start : Nat
  stop : Nat
deriving DecidableEq, Repr

/-- The persisted ShibuDB state touched by the indexer: `fileMeta` and
`fileList` model the `file_meta_<path>` keys and the `file_metadata_list`
manifest of the metadata space, `chunkMeta` the `chunk_<id>` keys,
`fileChunks` the `file_chunks_<path>` keys, `vectors` the vector space. -/
structure Store where
  fileMeta : List (String × FileMetadata)
  fileList : Option (List String)
  chunkMeta : List (ChunkId × Chunk)
  fileChunks : List (String × List ChunkId)
  vectors : List (ChunkId × Vec)
deriving DecidableEq, Repr

/-- Counted effects of one `build` call: encoder invocations and store
writes (`put` / `insert_vector`). -/
structure BuildTrace where
  embedCalls : Nat
  storeWrites : Nat
deriving DecidableEq, Repr

/-- In-memory state of a `PersistentRepoIndexer` between calls:
`self.file_metadata`, whether `self.embedder` is already loaded, and
`self.client`. -/
structure IndexerState where
  file_metadata : List (String × FileMetadata)
  embedderLoaded : Bool
  client : Bool
deriving DecidableEq, Repr

/-- The comparison of `_get_changed_files`: a tracked file is modified when
size, mtime or content hash differ from the stored record. -/
def fileModified (stored : FileMetadata) (f : FsFile) : Bool :=
  decide (f.size ≠ stored.size) || decide (f.mtime ≠ stored.mtime) ||
    decide (f.hash ≠ stored.hash)

/-- Result of `_get_changed_files`, plus a count of content-hash
computations: `_get_file_metadata` (which hashes the whole file) is called
for every scanned file that already has a record, before any comparison. -/
structure ChangeSet where
  newFiles : List FsFile
  modifiedFiles : List FsFile
  deletedPaths : List String
  hashOps : Nat
deriving DecidableEq, Repr

/-- One iteration of the scan loop of `_get_changed_files`: an untracked file
is new; a tracked one has its current metadata (hash included) computed and
compared. -/
def scanStep (records : List (String × FileMetadata))
    (acc : List FsFile × List FsFile × Nat) (f : FsFile) :
    List FsFile × List FsFile × Nat :=
  match alGet f.path records with
  | none => (acc.1 ++ [f], acc.2.1, acc.2.2)
  | some m =>
    if fileModified m f then (acc.1, acc.2.1 ++ [f], acc.2.2 + 1)
    else (acc.1, acc.2.1, acc.2.2 + 1)

/-- Whether the scan classifies a tracked file as modified. -/
def trackedModified (records : List (String × FileMetadata)) (f : FsFile) :
    Bool :=
  match alGet f.path records with
  | some m => fileModified m f
  | none => false

/-- The scan loop of `_get_changed_files` (lines 231-247). -/
def scanFiles (records : List (String × FileMetadata)) (fs : List FsFile) :
    List FsFile × List FsFile × Nat :=
  fs.foldl (scanStep records) ([], [], 0)

/-- Embeds `PersistentRepoIndexer._get_changed_files` (lines 225-256). -/
def getChangedFiles (fs : List FsFile) (records : List (String × FileMetadata)) :
    ChangeSet :=
  let s := scanFiles records fs
  { newFiles := s.1
    modifiedFiles := s.2.1
    deletedPaths := (alKeys records).filter (fun p => !fs.any (fun f => f.path == p))
    hashOps := s.2.2 }

/-- Embeds `PersistentRepoIndexer._remove_file_from_index` (lines 258-296): with no
client it returns immediately; otherwise it deletes the FileRecord (in memory
and its `file_meta_…` key), then every `chunk_<id>` listed under
`file_chunks_<path>`, then that list itself.  Nothing touches `vectors`. -/
def removeFileFromIndex (client : Bool) (relPath : String)
    (records : List (String × FileMetadata)) (store : Store) :
    List (String × FileMetadata) × Store :=
  if !client then (records, store)
  else
    let rs :=
      if (alGet relPath records).isSome then
        (alErase relPath records, { store with fileMeta := alErase relPath store.fileMeta })
      else (records, store)
    match alGet relPath rs.2.fileChunks with
    | some ids =>
      (rs.1,
       { rs.2 with
         chunkMeta := ids.foldl (fun cm id => alErase id cm) rs.2.chunkMeta,
         fileChunks := alErase relPath rs.2.fileChunks })
    | none => (rs.1, rs.2)

/-- Embeds `PersistentRepoIndexer._get_file_metadata` (lines 123-133): stat
fingerprint plus content hash, `chunk_count` initialised to 0. -/
def getFileMetadata (now : Nat) (f : FsFile) : FileMetadata :=
  ⟨f.path, f.size, f.mtime, f.hash, now, 0⟩

/-- Chunk metadata as stored: text truncated to 1000 characters. -/
def prepChunk (c : Chunk) : Chunk := { c with text := c.text.take 1000 }

/-- Embeds `PersistentRepoIndexer._store_chunks_in_shibudb` (lines 334-380): no-op
without a client or chunks; otherwise one batched encoder call over all
chunk texts, then per chunk an `insert_vector` and a `chunk_<id>` put, then
one `file_chunks_<path>` put keyed by the first chunk's path. -/
def storeChunksInShibudb (client : Bool) (embedFn : Chunk → Vec)
    (chunks : List Chunk) (store : Store) (trace : BuildTrace) :
    Store × BuildTrace :=
  if !client || chunks.isEmpty then (store, trace)
  else
    let t1 : BuildTrace := { trace with embedCalls := trace.embedCalls + 1 }
    let r := chunks.foldl (fun (st : Store × BuildTrace × List ChunkId) c =>
      let id : ChunkId := ⟨c.path, c.start, c.stop⟩
      ({ st.1 with
          vectors := alPut id (embedFn c) st.1.vectors,
          chunkMeta := alPut id (prepChunk c) st.1.chunkMeta },
       { st.2.1 with storeWrites := st.2.1.storeWrites + 2 },
       st.2.2 ++ [id])) (store, t1, [])
    match chunks with
    | [] => (store, trace)
    | c0 :: _ =>
      ({ r.1 with fileChunks := alPut c0.path r.2.2 r.1.fileChunks },
       { r.2.1 with storeWrites := r.2.1.storeWrites + 1 })

/-- Embeds `PersistentRepoIndexer._load_file_metadata` (lines 141-194): no client
keeps the in-memory map; a missing manifest starts fresh; otherwise each
listed path whose `file_meta_…` key loads contributes a record, in manifest
order. -/
def loadFileMetadata (client : Bool) (cur : List (String × FileMetadata))
    (store : Store) : List (String × FileMetadata) :=
  if !client then cur
  else
    match store.fileList with
    | none => []
    | some ps => ps.filterMap (fun p => (alGet p store.fileMeta).map (fun m => (p, m)))

/-- One put of `_save_file_metadata`'s per-record loop. -/
def saveStep (st : Store × BuildTrace) (pm : String × FileMetadata) :
    Store × BuildTrace :=
  ({ st.1 with fileMeta := alPut pm.1 pm.2 st.1.fileMeta },
   { st.2 with storeWrites := st.2.storeWrites + 1 })

/-- Embeds `PersistentRepoIndexer._save_file_metadata` (lines 196-223): one put per
record, then one put of the manifest. -/
def saveFileMetadata (client : Bool) (records : List (String × FileMetadata))
    (store : Store) (trace : BuildTrace) : Store × BuildTrace :=
  if !client then (store, trace)
  else
    let r := records.foldl saveStep (store, trace)
    ({ r.1 with fileList := some (alKeys records) },
     { r.2 with storeWrites := r.2.storeWrites + 1 })

/-- One step of the deleted-files loop in `build`. -/
def removeStep (client : Bool)
    (p : List (String × FileMetadata) × Store) (d : String) :
    List (String × FileMetadata) × Store :=
  removeFileFromIndex client d p.1 p.2

/-- One iteration of the indexing loop in `build`: chunk the file; when it
yields chunks, store them and upsert its FileRecord (files yielding no chunks
are skipped entirely — no record is written). -/
def processFile (client : Bool) (embedFn : Chunk → Vec)
    (maxC overlap now : Nat)
    (acc : List (String × FileMetadata) × Store × BuildTrace) (f : FsFile) :
    List (String × FileMetadata) × Store × BuildTrace :=
  let chunks := indexFile maxC overlap f.path f.text
  if chunks.isEmpty then acc
  else
    let st2 := storeChunksInShibudb client embedFn chunks acc.2.1 acc.2.2
    (alPut f.path { getFileMetadata now f with chunk_count := chunks.length }
      acc.1, st2.1, st2.2)

/-- Result of one `build` call. -/
structure BuildResult where
  records : List (String × FileMetadata)
  store : Store
  trace : BuildTrace
  embedderLoaded : Bool
  client : Bool
deriving DecidableEq, Repr

/-- Embeds `PersistentRepoIndexer.build` (lines 387-464).  `connectOk` is whether
the ShibuDB connection attempt succeeds (`_connect_shibudb` catches a failure
and sets `client = None` instead of raising).  On a successful connection the
embedder is lazily loaded, issuing one test embedding on its very first load.
Steps: connect, load records, optionally discard them (`force_rebuild`),
detect changes, remove deleted files, and — only when there are files to
process — chunk/store each and save the metadata map.  With no files to
process the function returns before `_save_file_metadata`. -/
def build (connectOk : Bool) (embedFn : Chunk → Vec) (maxC overlap now : Nat)
    (fs : List FsFile) (st : IndexerState) (store : Store)
    (forceRebuild : Bool) : BuildResult :=
  let client := connectOk
  let trace0 : BuildTrace := ⟨if client && !st.embedderLoaded then 1 else 0, 0⟩
  let loaded := st.embedderLoaded || client
  let records0 := loadFileMetadata client st.file_metadata store
  let records1 := if forceRebuild then [] else records0
  let ch := getChangedFiles fs records1
  let rs := ch.deletedPaths.foldl (removeStep client) (records1, store)
  let filesToProcess := ch.newFiles ++ ch.modifiedFiles
  if filesToProcess.isEmpty then ⟨rs.1, rs.2, trace0, loaded, client⟩
  else
    let pr := filesToProcess.foldl
      (processFile client embedFn maxC overlap now) (rs.1, rs.2, trace0)
    let sv := saveFileMetadata client pr.1 pr.2.1 pr.2.2
    ⟨pr.1, sv.1, sv.2, loaded, client⟩

/-- The `total_files` / `total_chunks` aggregates of
`PersistentRepoIndexer.get_stats` (lines 532-544). -/
def getStats (records : List (String × FileMetadata)) : Nat × Nat :=
  (records.length, (records.map (·.2.chunk_count)).sum)

/-- Embeds `PersistentRepoIndexer.retrieve` (lines 466-530): without a client it
returns `[]` ("ShibuDB not connected - cannot retrieve"); otherwise the
(external) vector search yields id/distance pairs and each id whose
`chunk_<id>` metadata loads is reconstructed, others are skipped with a
warning. -/
def persistentRetrieve (client : Bool) (searchResults : List (ChunkId × Int))
    (store : Store) : List Chunk :=
  if !client then []
  else
    searchResults.foldl (fun acc idd =>
      match alGet idd.1 store.chunkMeta with
      | some cm => acc ++ [cm]
      | none => acc) []

/-- Position of the first occurrence of an element (specialised `indexOf`
with propositional equality, used to state ranking facts). -/
def idxOf {α : Type} [DecidableEq α] (a : α) : List α → Nat
  | [] => 0
  | b :: t => if b = a then 0 else idxOf a t + 1

/-- Invariants that hold of a connected, non-forced `build` over a
distinct-path tree whose files all yield chunks: every scanned file has an
up-to-date FileRecord, every FileRecord belongs to a scanned file, the record
keys are duplicate-free, reloading from the store reproduces the in-memory
records, and the embedder is loaded. -/
def BuildPost (fs : List FsFile) (R : BuildResult) : Prop :=
  (∀ f ∈ fs, ∃ m, alGet f.path R.records = some m ∧
    fileModified m f = false) ∧
  (∀ p, (alGet p R.records).isSome = true →
    fs.any (fun f => f.path == p) = true) ∧
  (alKeys R.records).Nodup ∧
  loadFileMetadata true [] R.store = R.records ∧
  R.embedderLoaded = true

/-! ## Concrete scenarios used by the claim theorems -/

/-- C1 scenario: a store holding one indexed file with one chunk and its
vector, while the current tree no longer contains the file. -/
def c1Meta : FileMetadata := ⟨"a.py", 3, 1, 7, 0, 1⟩

def c1Id : ChunkId := ⟨"a.py", 0, 3⟩

def c1Store : Store :=
  ⟨[("a.py", c1Meta)], some ["a.py"], [(c1Id, ⟨"a.py", 0, 3, ['x', '=', '1']⟩)],
   [("a.py", [c1Id])], [(c1Id, [1])]⟩

def c1Result : BuildResult :=
  build true (fun _ => [1]) 1600 200 9 [] ⟨[], true, false⟩ c1Store false

/-- C2 counterexample scenario: a tree containing one whitespace-only code
file (e.g. an empty `__init__.py`), built twice from scratch. -/
def c2WsFs : List FsFile := [⟨"w.py", 2, 1, 5, [' ', ' ']⟩]

def c2WsBuild1 : BuildResult :=
  build true (fun _ => [1]) 1600 200 9 c2WsFs ⟨[], false, false⟩
    ⟨[], none, [], [], []⟩ false

def c2WsBuild2 : BuildResult :=
  build true (fun _ => [1]) 1600 200 10 c2WsFs
    ⟨c2WsBuild1.records, c2WsBuild1.embedderLoaded, false⟩ c2WsBuild1.store false

/-- C3 scenario: the spec's flagship multi-intent query, as analysed by
`QueryAnalyzer.analyze` (`normalized_query = query.lower().strip()`; the
query contains no filename-shaped token, so no file references). -/
def c3Query : QueryAnalysis :=
  ⟨"How many files are in this project and how do they connect?",
   "how many files are in this project and how do they connect?", [], "analysis"⟩

/-- C4 scenario: a stored record and a touched file — identical content
hash and size, newer mtime. -/
def c4Stored : FileMetadata := ⟨"a.py", 10, 5, 42, 0, 1⟩

def c4Touched : FsFile := ⟨"a.py", 10, 6, 42, ['x']⟩

/-- C4 scenario: a resized file, where a cheap pre-filter would already
classify it as modified without hashing. -/
def c4Resized : FsFile := ⟨"a.py", 11, 5, 43, ['x', 'y']⟩

/-- C5 scenario: the adapter is unreachable at build start
(`connectOk = false`), one indexable file in the tree. -/
def c5Fs : List FsFile := [⟨"a.py", 3, 1, 7, ['x', '=', '1']⟩]

def c5Result : BuildResult :=
  build false (fun _ => [1]) 1600 200 9 c5Fs ⟨[], false, false⟩
    ⟨[], none, [], [], []⟩ false

/-- C6 scenario: a freshly constructed `CoreIndexer` with nothing indexed. -/
def emptyCoreIndexer : CoreIndexerState := ⟨[], [], []⟩

/-- C7 scenario: window 10, overlap 50 (`overlap_lines = max(1, 50//50) = 1`),
three 8-character lines — every chunk closes holding exactly one line, so the
source seeds every next chunk with no lines at all. -/
def c7Text : List Char := "aaaaaaaa\nbbbbbbbb\ncccccccc".toList

def c7Chunks : List CodeChunk := chunkTextCore 10 50 "f.py" "python" c7Text

/-- C8 scenario: two chunks whose embeddings tie exactly. -/
def c8Chunk0 : Chunk := ⟨"a.py", 0, 1, ['A']⟩

def c8Chunk1 : Chunk := ⟨"b.py", 0, 1, ['B']⟩

/-- C9 scenario: query `"app.py"` names `app.py` exactly, but `myapp.py`'s
filename contains the query, so its chunks are boosted 3× as well. -/
def c9Chunks : List Chunk := [⟨"app.py", 0, 3, ['x']⟩, ⟨"myapp.py", 0, 3, ['y']⟩]

/-- C9 witness scenario: the competitor file receives no boost at all. -/
def c9WChunks : List Chunk := [⟨"app.py", 0, 3, ['x']⟩, ⟨"zzz.rb", 0, 3, ['y']⟩]

/-- C2 witness scenario: a healthy one-file tree (the file yields a chunk). -/
def c2GoodFs : List FsFile := [⟨"a.py", 3, 1, 7, ['x', '=', '1']⟩]

def c2GoodBuild1 : BuildResult :=
  build true (fun _ => [1]) 1600 200 9 c2GoodFs ⟨[], false, false⟩
    ⟨[], none, [], [], []⟩ false

/-! ## Claim theorems -/

/-- C1 (code bug).  Deletion completeness fails: for a file present in the
persisted FileRecord map but absent from the tree, `build()` deletes the
FileRecord, the `chunk_<id>` metadata and the `file_chunks` list, and
`get_stats` aggregates drop to zero — but nothing ever deletes the chunk's
vector from the vector space, so an orphaned vector survives, exactly what
the spec forbids. -/
theorem c1_deletion_leaves_orphaned_vector :
    c1Result.records = [] ∧
    alGet "a.py" c1Result.store.fileMeta = none ∧
    alGet c1Id c1Result.store.chunkMeta = none ∧
    alGet "a.py" c1Result.store.fileChunks = none ∧
    getStats c1Result.records = (0, 0) ∧
    alGet c1Id c1Result.store.vectors = some [1] := by
  decide

/-- C3 counterexample.  The query "How many files are in this project and
how do they connect?" routes to `metadata` with `can_compute_directly = True`
(pattern `\bhow many.*files?\b` matches first), not to `multi_intent`; and
even `detect_multi_intent` — which `route` never calls — reports it as
single-intent, because only the metadata indicator patterns match
("how do they connect" matches no code or structure indicator). -/
theorem c3_route_metadata_not_multi_intent :
    route c3Query =
      ⟨"metadata", false, true, true,
       "Query asks for repository metadata/statistics"⟩ ∧
    (route c3Query).can_compute_directly = true ∧
    detectMultiIntent c3Query = (false, ["metadata"]) := by
  refine ⟨by decide, by decide, by decide⟩

/-- C3 (amended).  `QueryRouter.route` has no multi-intent branch at all:
its strategy is always one of `metadata`, `structure`, `file_specific`,
`semantic`, never `multi_intent` (the `MultiIntentHandler` is not invoked by
the router). -/
theorem c3_route_never_multi_intent (qa : QueryAnalysis) :
    (route qa).strategy ≠ "multi_intent" := by
  unfold route
  dsimp only
  split_ifs <;> simp

/-- C3 witness for the amended theorem. -/
theorem c3_route_never_multi_intent_witness :
    (route c3Query).strategy ≠ "multi_intent" :=
  c3_route_never_multi_intent c3Query

/-- C4 counterexample.  A touched file (same size, same content hash,
newer mtime) is classified as modified — so it is re-chunked and re-embedded —
and the content hash is computed for every tracked file regardless of the
size/mtime comparison (hash count is 1 even when the size alone already
differs). -/
theorem c4_touch_is_classified_modified :
    fileModified c4Stored c4Touched = true ∧
    (getChangedFiles [c4Touched] [("a.py", c4Stored)]).modifiedFiles =
      [c4Touched] ∧
    (getChangedFiles [c4Touched] [("a.py", c4Stored)]).hashOps = 1 ∧
    (getChangedFiles [c4Resized] [("a.py", c4Stored)]).hashOps = 1 := by
  decide

/-- C5 (code bug).  With the adapter unreachable at build start the
indexer does not raise and reports `shibudb_connected = False`
(`client = false`), but the advertised "in-memory" fallback stores nothing:
the build performs zero store writes, no vector exists anywhere afterwards,
and `retrieve` returns `[]` — the chunk indexed during the degraded build is
not retrievable in-process, contradicting both the claim and the code's own
"Falling back to in-memory indexing" message.  (The in-memory FileRecord is
still created, which is all the "fallback" amounts to.) -/
theorem c5_degraded_build_stores_nothing :
    c5Result.client = false ∧
    c5Result.trace.storeWrites = 0 ∧
    c5Result.trace.embedCalls = 0 ∧
    c5Result.store.vectors = [] ∧
    (alGet "a.py" c5Result.records).isSome = true ∧
    persistentRetrieve c5Result.client [(⟨"a.py", 0, 3⟩, 5)] c5Result.store
      = [] := by
  decide

/-- C6 counterexample.  The fallback indexer's retrieval raises
`RuntimeError("Index is empty. Build it first.")` on an empty index instead
of returning an empty result (both `retrieve` and `retrieve_by_file`). -/
theorem c6_repo_retrieve_raises_on_empty :
    repoRetrieve [] [] [1] 12 =
      Except.error "Index is empty. Build it first." ∧
    repoRetrieveByFile [] [] "app.py" [1] 12 =
      Except.error "Index is empty. Build it first." :=
  ⟨rfl, rfl⟩

/-- C7 (code bug).  The line chunker does not seed the next chunk with
trailing lines of cumulative size ≤ `overlap_chars`: it takes a fixed
`max(1, overlap_chars // 50)` line count, and takes *no* lines at all when
the closing chunk has no more than that many lines.  With window 10 and
overlap 50 on three 8-character lines, consecutive chunks share no line
whatsoever, violating the claimed ≥ 1 line of overlap. -/
theorem c7_overlap_seed_can_be_empty :
    c7Chunks.map (fun c => (c.start_line, c.end_line, c.content)) =
      [(0, 1, "aaaaaaaa".toList), (1, 2, "bbbbbbbb".toList),
       (2, 3, "cccccccc".toList)] ∧
    specSeedOk 50 "aaaaaaaa".toList "bbbbbbbb".toList = false ∧
    specSeedOk 50 "bbbbbbbb".toList "cccccccc".toList = false := by
  decide

/-- C8 counterexample.  `RepoIndexer.retrieve` sorts the
`(similarity, index)` tuples with `sort(reverse=True)`, which on a similarity
tie orders by *descending* index: two identical embeddings come back in
reverse insertion order, not original insertion order. -/
theorem c8_repo_retrieve_tie_order_reversed :
    repoRetrieve [c8Chunk0, c8Chunk1] [[1], [1]] [1] 12 =
      Except.ok [c8Chunk1, c8Chunk0] := by
  rfl

/-- C9 counterexample.  For the query `"app.py"` (an exact filename in
the index) with raw similarities 10 (for `app.py`) and 30 (for `myapp.py`,
below 5× of 10), the boosted ranking still puts `myapp.py` first, because its
filename *contains* the query and receives the 3× boost: 30·3 = 90 > 10·5 =
50.  The claimed ordering guarantee fails for boosted competitor files. -/
theorem c9_boosted_competitor_outranks_exact_match :
    repoRetrieveWithFilenameBoost c9Chunks [[1], [3]] "app.py" [10] 12 =
      Except.ok [⟨"myapp.py", 0, 3, ['y']⟩, ⟨"app.py", 0, 3, ['x']⟩] := by
  rfl

/-- Fuel `|text| - i < fuel` suffices for the character-window loop whenever
`overlap < maxC`: each iteration either finishes or advances the window start
by `maxC - overlap ≥ 1`. -/
theorem chunkLoopFuel_isSome_of_lt (path : String) (maxC overlap : Nat)
    (text : List Char) (h : overlap < maxC) :
    ∀ fuel i, text.length - i < fuel →
      (chunkLoopFuel path maxC overlap text fuel i).isSome = true := by
  intro fuel
  induction fuel with
  | zero => intro i hi; omega
  | succ g ih =>
    intro i hi
    simp only [chunkLoopFuel]
    by_cases h1 : i < text.length
    · simp only [if_pos h1]
      by_cases h2 : text.length ≤ min (i + maxC) text.length
      · simp only [if_pos h2, Option.isSome_some]
      · simp only [if_neg h2]
        by_cases h3 : text.length ≤ min (i + maxC) text.length - overlap
        · simp only [if_pos h3, Option.isSome_some]
        · simp only [if_neg h3, Option.isSome_map']
          apply ih
          have hle : i + maxC ≤ text.length := by
            by_contra hcon
            push_neg at hcon
            rw [Nat.min_eq_right hcon.le] at h2
            exact h2 (le_refl _)
          have hmin : min (i + maxC) text.length = i + maxC := Nat.min_eq_left hle
          omega
    · simp only [if_neg h1, Option.isSome_some]

/-- With `overlap ≥ maxC` and text longer than one window, the start index
never advances (`max(j - overlap, 0) = 0`), so no amount of fuel finishes the
loop: the Python `while` runs forever. -/
theorem chunkLoopFuel_none_of_overlap_ge (path : String) (maxC overlap : Nat)
    (text : List Char) (h1 : maxC ≤ overlap) (h2 : maxC < text.length) :
    ∀ fuel, chunkLoopFuel path maxC overlap text fuel 0 = none := by
  intro fuel
  induction fuel with
  | zero => rfl
  | succ g ih =>
    simp only [chunkLoopFuel]
    have h0 : 0 < text.length := by omega
    have hj : min (0 + maxC) text.length = maxC := by
      rw [Nat.zero_add]
      exact Nat.min_eq_left h2.le
    simp only [if_pos h0, hj]
    have hx2 : ¬ text.length ≤ maxC := by omega
    have hz : maxC - overlap = 0 := by omega
    have hx3 : ¬ text.length ≤ 0 := by omega
    simp only [if_neg hx2, hz, if_neg hx3, ih, Option.map_none']

/-- C10 (confirmed).  The character-window chunk loop terminates for every
input text under the precondition `overlap < max_chunk_chars` (fuel
`|text| + 1` suffices from start index 0), and the precondition is required:
with `overlap ≥ max_chunk_chars` and a text longer than one window the loop
never terminates (every fuel bound is exhausted). -/
theorem c10_chunk_loop_termination (path : String) (maxC overlap : Nat)
    (text : List Char) :
    (overlap < maxC →
      (chunkLoopFuel path maxC overlap text (text.length + 1) 0).isSome = true) ∧
    (maxC ≤ overlap → maxC < text.length →
      ∀ fuel, chunkLoopFuel path maxC overlap text fuel 0 = none) :=
  ⟨fun h => chunkLoopFuel_isSome_of_lt path maxC overlap text h _ 0 (by omega),
   fun h1 h2 => chunkLoopFuel_none_of_overlap_ge path maxC overlap text h1 h2⟩

/-- C10 witness: both halves at concrete inputs. -/
theorem c10_chunk_loop_termination_witness :
    (chunkLoopFuel "p" 3 1 "abcdefgh".toList 9 0).isSome = true ∧
    chunkLoopFuel "p" 3 3 "abcdefgh".toList 50 0 = none :=
  ⟨(c10_chunk_loop_termination "p" 3 1 "abcdefgh".toList).1 (by decide),
   (c10_chunk_loop_termination "p" 3 3 "abcdefgh".toList).2 (by decide) (by decide) 50⟩

/-- Unrolling the change-detector scan: new files are the untracked ones,
modified files the tracked ones with a differing fingerprint, and one content
hash is computed per tracked file — unconditionally. -/
theorem scanFiles_spec (records : List (String × FileMetadata)) :
    ∀ (fs : List FsFile) (acc : List FsFile × List FsFile × Nat),
      fs.foldl (scanStep records) acc =
        (acc.1 ++ fs.filter (fun f => (alGet f.path records).isNone),
         acc.2.1 ++ fs.filter (trackedModified records),
         acc.2.2 + (fs.filter (fun f => (alGet f.path records).isSome)).length) := by
  intro fs
  induction fs with
  | nil => intro acc; simp
  | cons f fs ih =>
    intro acc
    rw [List.foldl_cons, ih]
    rcases hg : alGet f.path records with _ | m
    · simp [scanStep, trackedModified, hg, List.filter_cons]
    · by_cases hm : fileModified m f
      · simp [scanStep, trackedModified, hg, hm, List.filter_cons]
        omega
      · simp [scanStep, trackedModified, hg, hm, List.filter_cons]
        omega

/-- C4 (amended).  What the change detector actually does: a tracked file
is classified modified iff size, mtime *or* content hash differ (so a touched
file with unchanged content is re-chunked and re-embedded), and the content
hash is computed for every tracked file before any comparison — there is no
cheap size/mtime pre-filter.  A file is unmodified iff all three fingerprint
components match. -/
theorem c4_change_detector_characterization (fs : List FsFile)
    (records : List (String × FileMetadata)) :
    (getChangedFiles fs records).newFiles =
      fs.filter (fun f => (alGet f.path records).isNone) ∧
    (getChangedFiles fs records).modifiedFiles =
      fs.filter (trackedModified records) ∧
    (getChangedFiles fs records).hashOps =
      (fs.filter (fun f => (alGet f.path records).isSome)).length ∧
    ∀ (m : FileMetadata) (f : FsFile),
      fileModified m f = false ↔
        (f.size = m.size ∧ f.mtime = m.mtime ∧ f.hash = m.hash) := by
  refine ⟨?_, ?_, ?_, ?_⟩
  · show (scanFiles records fs).1 = _
    rw [scanFiles, scanFiles_spec]
    simp
  · show (scanFiles records fs).2.1 = _
    rw [scanFiles, scanFiles_spec]
    simp
  · show (scanFiles records fs).2.2 = _
    rw [scanFiles, scanFiles_spec]
    simp
  · intro m f
    simp only [fileModified, Bool.or_eq_false_iff, decide_eq_false_iff_not,
      ne_eq, not_not]
    tauto

/-- In the freshly constructed core indexer every per-file lookup fails, so
file-specific retrieval collects nothing. -/
theorem retrieveByFiles_empty (refs : List FileReference) (topK : Nat) :
    retrieveByFiles emptyCoreIndexer refs topK = [] := by
  unfold retrieveByFiles
  suffices h : ∀ (rs : List FileReference) (acc : List CodeChunk),
      rs.foldl (fun acc r =>
        match getFileByName emptyCoreIndexer.file_tree r.filename with
        | none => acc
        | some fn => acc ++ getChunksByFile emptyCoreIndexer.chunks fn.path)
        acc = acc by
    rw [h]
    exact List.take_nil
  intro rs
  induction rs with
  | nil => intro acc; rfl
  | cons r rs ih => intro acc; exact ih acc

/-- C6 (amended).  Over an empty index, the core pipeline's
`ContextRetriever.retrieve` returns an empty `RetrievalContext` (empty chunk
list, zero totals, empty file tree) for every query analysis, `top_k` and
embedder state, and being a total function it raises nothing; the fallback
`RepoIndexer.retrieve`/`retrieve_by_file`, by contrast, raise `RuntimeError`
on an empty index (see the counterexample theorem). -/
theorem c6_context_retrieve_empty_index (qa : QueryAnalysis)
    (embedderSome : Bool) (qEmb : Vec) (topK : Nat) :
    (contextRetrieve emptyCoreIndexer [] embedderSome qEmb qa topK).chunks = [] ∧
    (contextRetrieve emptyCoreIndexer [] embedderSome qEmb qa topK).total_chunks = 0 ∧
    (contextRetrieve emptyCoreIndexer [] embedderSome qEmb qa topK).file_tree = [] := by
  have hrbf := retrieveByFiles_empty qa.file_references topK
  unfold contextRetrieve
  by_cases h : qa.file_references = []
  · simp [h, emptyCoreIndexer]
  · simp [h, hrbf]

/-- Dropping the scores from `(score, i)` pairs built over `range n` recovers
`range n`. -/
theorem rangeTag_map_snd (f : Nat → Int) (n : Nat) :
    (((List.range n).map (fun i => (f i, i))).map (fun p => p.2)) =
      List.range n := by
  rw [List.map_map]
  simp [Function.comp_def]

/-- Every member of the tagged score list is determined by its index tag. -/
theorem mem_rangeTag {f : Nat → Int} {n : Nat} {x : Int × Nat}
    (hx : x ∈ (List.range n).map (fun i => (f i, i))) :
    x.1 = f x.2 ∧ x.2 < n := by
  rcases List.mem_map.mp hx with ⟨i, hi, rfl⟩
  exact ⟨rfl, List.mem_range.mp hi⟩

/-- The tagged score list has no duplicates (the index tags are distinct). -/
theorem rangeTag_nodup (f : Nat → Int) (n : Nat) :
    ((List.range n).map (fun i => (f i, i))).Nodup := by
  refine List.Nodup.map ?_ (List.nodup_range n)
  intro a b hab
  exact congrArg Prod.snd hab

/-- C8 (amended).  The core semantic strategy is as claimed: scoring is
the dot product of the query vector against each stored vector, and the index
order produced by `_retrieve_semantic`'s stable key-only sort is a permutation
of all indices, pairwise ordered by strictly descending score with ties in
ascending (original insertion) order.  The *fallback* `RepoIndexer.retrieve`
instead sorts whole `(score, index)` tuples in reverse, which orders ties by
descending insertion index (see the counterexample theorem). -/
theorem c8_semantic_order_sorted_and_stable (q : Vec) (embs : List Vec) :
    (semanticOrder q embs).Perm (List.range embs.length) ∧
    (semanticOrder q embs).Pairwise (fun i j =>
      dot q (embs.getD j []) < dot q (embs.getD i []) ∨
      (dot q (embs.getD i []) = dot q (embs.getD j []) ∧ i < j)) := by
  have hperm : (List.insertionSort simKeyGe (semanticSims q embs)).Perm
      (semanticSims q embs) := List.perm_insertionSort _ _
  constructor
  · have hmap := hperm.map (fun p : Int × Nat => p.2)
    have h2 : (semanticSims q embs).map (fun p => p.2) =
        List.range embs.length :=
      rangeTag_map_snd (fun i => dot q (embs.getD i [])) embs.length
    unfold semanticOrder
    exact h2 ▸ hmap
  · have hsorted : (List.insertionSort simKeyGe (semanticSims q embs)).Pairwise
        simKeyGe := List.sorted_insertionSort simKeyGe (semanticSims q embs)
    have hnd : (List.insertionSort simKeyGe (semanticSims q embs)).Nodup :=
      hperm.nodup_iff.mpr
        (rangeTag_nodup (fun i => dot q (embs.getD i [])) embs.length)
    unfold semanticOrder
    rw [List.pairwise_map]
    refine List.Pairwise.imp_of_mem ?_ (hsorted.and hnd)
    intro a b ha hb hab
    have hA := mem_rangeTag (f := fun i => dot q (embs.getD i []))
      (hperm.mem_iff.mp ha)
    have hB := mem_rangeTag (f := fun i => dot q (embs.getD i []))
      (hperm.mem_iff.mp hb)
    have hA1 : a.1 = dot q (embs.getD a.2 []) := hA.1
    have hB1 : b.1 = dot q (embs.getD b.2 []) := hB.1
    rcases hab with ⟨hr, hne⟩
    rcases hr with hlt | ⟨heq, hle⟩
    · left
      rw [← hA1, ← hB1]
      exact hlt
    · right
      refine ⟨by rw [← hA1, ← hB1]; exact heq, ?_⟩
      rcases lt_or_eq_of_le hle with h | h
      · exact h
      · exfalso
        apply hne
        have h1 : a.1 = b.1 := by rw [hA1, hB1, h]
        exact Prod.ext h1 h


/-- An exactly matching filename receives the 5× boost. -/
theorem boostMul_exact {q : String} {c : Chunk} {raw : Int}
    (h : strLower (basename c.path) = strLower q) :
    boostMul q c raw = 5 * raw := by
  unfold boostMul
  rw [if_pos (beq_iff_eq.mpr h)]

/-- A chunk matching neither filename (exactly or as substring) nor path
keeps its raw similarity. -/
theorem boostMul_unboosted {q : String} {c : Chunk} {raw : Int}
    (h1 : strLower (basename c.path) ≠ strLower q)
    (h2 : containsSub (strLower q) (strLower (basename c.path)) = false)
    (h3 : containsSub (strLower q) (strLower c.path) = false) :
    boostMul q c raw = raw := by
  unfold boostMul
  rw [if_neg, if_neg, if_neg]
  · rw [h3]; exact Bool.false_ne_true
  · rw [h2]; exact Bool.false_ne_true
  · intro hbe
    exact h1 (beq_iff_eq.mp hbe)

/-- In a pairwise-`R`-ordered list, an element that `R`-dominates another
(in the sense that the other never `R`-precedes it) appears strictly
earlier. -/
theorem pairwise_idxOf_lt {α : Type} [DecidableEq α] {R : α → α → Prop} :
    ∀ {l : List α} {a b : α}, l.Pairwise R → a ∈ l → b ∈ l → a ≠ b →
      ¬R b a → idxOf a l < idxOf b l := by
  intro l
  induction l with
  | nil => intro a b _ ha _ _ _; exact absurd ha (List.not_mem_nil a)
  | cons c t ih =>
    intro a b hp ha hb hab hnr
    rcases List.pairwise_cons.mp hp with ⟨hc, ht⟩
    by_cases hac : c = a
    · subst hac
      rw [idxOf, if_pos rfl, idxOf, if_neg hab]
      exact Nat.succ_pos _
    · have hat : a ∈ t := by
        rcases List.mem_cons.mp ha with h | h
        · exact absurd h.symm hac
        · exact h
      by_cases hbc : c = b
      · subst hbc
        exact absurd (hc a hat) hnr
      · have hbt : b ∈ t := by
          rcases List.mem_cons.mp hb with h | h
          · exact absurd h.symm hbc
          · exact h
        rw [idxOf, if_neg hac, idxOf, if_neg hbc]
        exact Nat.succ_lt_succ (ih ht hat hbt hab hnr)

/-- With duplicate-free index tags, the position of an index in the projected
index list equals the position of its pair in the pair list. -/
theorem idxOf_map_snd :
    ∀ {l : List (Int × Nat)}, (l.map (fun p => p.2)).Nodup →
      ∀ {x : Int × Nat}, x ∈ l →
        idxOf x.2 (l.map (fun p => p.2)) = idxOf x l := by
  intro l
  induction l with
  | nil => intro _ x hx; exact absurd hx (List.not_mem_nil x)
  | cons p t ih =>
    intro hnd x hx
    rw [List.map_cons] at hnd ⊢
    rcases List.mem_cons.mp hx with rfl | hxt
    · rw [idxOf, if_pos rfl, idxOf, if_pos rfl]
    · have hx2 : x.2 ∈ t.map (fun p => p.2) := List.mem_map_of_mem _ hxt
      have hp2 : p.2 ≠ x.2 := by
        intro he
        exact (List.nodup_cons.mp hnd).1 (he ▸ hx2)
      have hpx : p ≠ x := fun he => hp2 (congrArg Prod.snd he)
      rw [idxOf, if_neg hp2, idxOf, if_neg hpx,
        ih (List.nodup_cons.mp hnd).2 hxt]

/-- C9 (amended).  For a query equal (case-insensitively) to the filename
of chunk `i`, and a chunk `j` of a different file that receives *no* boost
(its filename neither equals nor contains the query, nor does its path
contain it), raw similarity of `j` below 5× the raw similarity of `i`
guarantees chunk `i` is ranked strictly above chunk `j` by
`retrieve_with_filename_boost`.  The 5× guarantee does not extend to
competitor files that themselves receive the 3× (filename-substring) or 2×
(path-substring) boost: see the counterexample theorem. -/
theorem c9_exact_match_outranks_unboosted (q : String) (qEmb : Vec)
    (chunks : List Chunk) (embs : List Vec) (i j : Nat)
    (hi : i < embs.length) (hj : j < embs.length)
    (hexact : strLower (basename (chunks.getD i ⟨"", 0, 0, []⟩).path) = strLower q)
    (hjne : strLower (basename (chunks.getD j ⟨"", 0, 0, []⟩).path) ≠ strLower q)
    (hjfn : containsSub (strLower q)
      (strLower (basename (chunks.getD j ⟨"", 0, 0, []⟩).path)) = false)
    (hjpath : containsSub (strLower q)
      (strLower (chunks.getD j ⟨"", 0, 0, []⟩).path) = false)
    (hraw : dot qEmb (embs.getD j []) < 5 * dot qEmb (embs.getD i [])) :
    idxOf i (boostOrder q qEmb chunks embs) <
      idxOf j (boostOrder q qEmb chunks embs) := by
  have hboosti : boostMul q (chunks.getD i ⟨"", 0, 0, []⟩)
      (dot qEmb (embs.getD i [])) = 5 * dot qEmb (embs.getD i []) :=
    boostMul_exact hexact
  have hboostj : boostMul q (chunks.getD j ⟨"", 0, 0, []⟩)
      (dot qEmb (embs.getD j [])) = dot qEmb (embs.getD j []) :=
    boostMul_unboosted hjne hjfn hjpath
  have hij : i ≠ j := by
    intro he
    exact hjne (he ▸ hexact)
  have hperm : (List.insertionSort tupleGe (boostSims q qEmb chunks embs)).Perm
      (boostSims q qEmb chunks embs) := List.perm_insertionSort _ _
  have hsorted : (List.insertionSort tupleGe (boostSims q qEmb chunks embs)).Pairwise
      tupleGe := List.sorted_insertionSort tupleGe _
  have hmemi : ((boostMul q (chunks.getD i ⟨"", 0, 0, []⟩)
      (dot qEmb (embs.getD i [])), i) : Int × Nat) ∈
      boostSims q qEmb chunks embs := by
    unfold boostSims
    exact List.mem_map.mpr ⟨i, List.mem_range.mpr hi, rfl⟩
  have hmemj : ((boostMul q (chunks.getD j ⟨"", 0, 0, []⟩)
      (dot qEmb (embs.getD j [])), j) : Int × Nat) ∈
      boostSims q qEmb chunks embs := by
    unfold boostSims
    exact List.mem_map.mpr ⟨j, List.mem_range.mpr hj, rfl⟩
  rw [hboosti] at hmemi
  rw [hboostj] at hmemj
  have hne : ((5 * dot qEmb (embs.getD i []), i) : Int × Nat) ≠
      (dot qEmb (embs.getD j []), j) := by
    intro he
    exact hij (congrArg Prod.snd he)
  have hnr : ¬tupleGe (dot qEmb (embs.getD j []), j)
      (5 * dot qEmb (embs.getD i []), i) := by
    intro hr
    rcases hr with hlt | ⟨heq, _⟩
    · simp only at hlt
      omega
    · simp only at heq
      omega
  have hpairs := pairwise_idxOf_lt hsorted (hperm.mem_iff.mpr hmemi)
    (hperm.mem_iff.mpr hmemj) hne hnr
  have hndmap : ((List.insertionSort tupleGe
      (boostSims q qEmb chunks embs)).map (fun p => p.2)).Nodup := by
    have hmap := hperm.map (fun p : Int × Nat => p.2)
    have h2 : (boostSims q qEmb chunks embs).map (fun p => p.2) =
        List.range embs.length :=
      rangeTag_map_snd
        (fun k => boostMul q (chunks.getD k ⟨"", 0, 0, []⟩)
          (dot qEmb (embs.getD k []))) embs.length
    rw [hmap.nodup_iff, h2]
    exact List.nodup_range embs.length
  have hidxi := idxOf_map_snd hndmap (hperm.mem_iff.mpr hmemi)
  have hidxj := idxOf_map_snd hndmap (hperm.mem_iff.mpr hmemj)
  unfold boostOrder
  calc idxOf i ((List.insertionSort tupleGe (boostSims q qEmb chunks embs)).map
        (fun p => p.2))
      = _ := hidxi
    _ < _ := hpairs
    _ = _ := hidxj.symm

/-- C9 witness for the amended theorem: query `"app.py"`, target chunk 0
(raw similarity 1), unboosted competitor chunk 1 from `zzz.rb` (raw
similarity 2 < 5·1): chunk 0 is ranked first. -/
theorem c9_exact_match_outranks_unboosted_witness :
    idxOf 0 (boostOrder "app.py" [1] c9WChunks [[1], [2]]) <
      idxOf 1 (boostOrder "app.py" [1] c9WChunks [[1], [2]]) :=
  c9_exact_match_outranks_unboosted "app.py" [1] c9WChunks [[1], [2]] 0 1
    (by decide) (by decide) (by decide) (by decide) (by decide) (by decide)
    (by decide)

/-! ### Association-list lemmas -/

theorem alKeys_cons {α β : Type} (p : α × β) (l : List (α × β)) :
    alKeys (p :: l) = p.1 :: alKeys l := rfl

theorem alKeys_nil {α β : Type} : alKeys ([] : List (α × β)) = [] := rfl

theorem alGet_alErase {α β : Type} [DecidableEq α] (k d : α)
    (l : List (α × β)) :
    alGet k (alErase d l) = if k = d then none else alGet k l := by
  induction l with
  | nil => simp [alGet, alErase]
  | cons p t ih =>
    obtain ⟨a, b⟩ := p
    by_cases had : a = d
    · subst had
      rw [alErase, if_pos rfl, ih]
      by_cases hka : a = k
      · subst hka
        simp [alGet]
      · rw [alGet, if_neg hka]
    · rw [alErase, if_neg had]
      by_cases hka : a = k
      · subst hka
        have hkd : ¬a = d := had
        rw [alGet, if_pos rfl, if_neg hkd, alGet, if_pos rfl]
      · rw [alGet, if_neg hka, ih]
        by_cases hkd : k = d
        · rw [if_pos hkd, if_pos hkd]
        · rw [if_neg hkd, if_neg hkd, alGet, if_neg hka]

theorem alErase_of_none {α β : Type} [DecidableEq α] {d : α}
    {l : List (α × β)} (h : alGet d l = none) : alErase d l = l := by
  induction l with
  | nil => rfl
  | cons p t ih =>
    obtain ⟨a, b⟩ := p
    rw [alGet] at h
    by_cases had : a = d
    · rw [if_pos had] at h
      cases h
    · rw [if_neg had] at h
      rw [alErase, if_neg had, ih h]

theorem alGet_alPut {α β : Type} [DecidableEq α] (k d : α) (v : β)
    (l : List (α × β)) :
    alGet k (alPut d v l) = if k = d then some v else alGet k l := by
  induction l with
  | nil =>
    rw [alPut, alGet, alGet]
    by_cases hkd : k = d
    · rw [if_pos (hkd ▸ rfl : d = k), if_pos hkd]
    · rw [if_neg (fun h : d = k => hkd h.symm), if_neg hkd, alGet]
  | cons p t ih =>
    obtain ⟨a, b⟩ := p
    by_cases had : a = d
    · subst had
      rw [alPut, if_pos rfl]
      by_cases hka : k = a
      · subst hka
        rw [alGet, if_pos rfl, if_pos rfl]
      · rw [alGet, if_neg (fun h : a = k => hka h.symm),
          if_neg (fun h : k = a => hka h), alGet,
          if_neg (fun h : a = k => hka h.symm)]
    · rw [alPut, if_neg had]
      by_cases hka : a = k
      · subst hka
        have hkd : ¬a = d := had
        rw [alGet, if_pos rfl, if_neg hkd, alGet, if_pos rfl]
      · rw [alGet, if_neg hka, ih]
        by_cases hkd : k = d
        · rw [if_pos hkd, if_pos hkd]
        · rw [if_neg hkd, if_neg hkd, alGet, if_neg hka]

theorem alKeys_alErase {α β : Type} [DecidableEq α] (d : α)
    (l : List (α × β)) :
    alKeys (alErase d l) = (alKeys l).filter (fun a => !decide (a = d)) := by
  induction l with
  | nil => rfl
  | cons p t ih =>
    obtain ⟨a, b⟩ := p
    by_cases had : a = d
    · subst had
      rw [alErase, if_pos rfl, ih, alKeys_cons, List.filter_cons]
      simp
    · rw [alErase, if_neg had, alKeys_cons, alKeys_cons, ih, List.filter_cons]
      simp [had]

theorem alKeys_alErase_nodup {α β : Type} [DecidableEq α] (d : α)
    {l : List (α × β)} (h : (alKeys l).Nodup) :
    (alKeys (alErase d l)).Nodup := by
  rw [alKeys_alErase]
  exact h.filter _

theorem alGet_isSome_iff_mem {α β : Type} [DecidableEq α] (k : α)
    (l : List (α × β)) :
    (alGet k l).isSome = true ↔ k ∈ alKeys l := by
  induction l with
  | nil => simp [alGet, alKeys_nil]
  | cons p t ih =>
    obtain ⟨a, b⟩ := p
    rw [alKeys_cons]
    by_cases hak : a = k
    · subst hak
      rw [alGet, if_pos rfl]
      simp
    · rw [alGet, if_neg hak, ih]
      have hka : ¬k = a := fun h => hak h.symm
      simp [List.mem_cons, hka]

theorem alKeys_alPut {α β : Type} [DecidableEq α] (k : α) (v : β)
    (l : List (α × β)) :
    alKeys (alPut k v l) =
      if k ∈ alKeys l then alKeys l else alKeys l ++ [k] := by
  induction l with
  | nil => simp [alPut, alKeys_cons, alKeys_nil]
  | cons p t ih =>
    obtain ⟨a, b⟩ := p
    rw [alKeys_cons]
    by_cases hak : a = k
    · subst hak
      rw [alPut, if_pos rfl, alKeys_cons]
      simp
    · rw [alPut, if_neg hak, alKeys_cons, ih]
      have hka : ¬k = a := fun h => hak h.symm
      by_cases hmem : k ∈ alKeys t
      · rw [if_pos hmem, if_pos (List.mem_cons.mpr (Or.inr hmem))]
      · rw [if_neg hmem, if_neg ?_]
        · rfl
        · intro hc
          rcases List.mem_cons.mp hc with h | h
          · exact hka h
          · exact hmem h

theorem alKeys_alPut_nodup {α β : Type} [DecidableEq α] (k : α) (v : β)
    {l : List (α × β)} (h : (alKeys l).Nodup) :
    (alKeys (alPut k v l)).Nodup := by
  rw [alKeys_alPut]
  by_cases hmem : k ∈ alKeys l
  · rwa [if_pos hmem]
  · rw [if_neg hmem, List.nodup_append]
    exact ⟨h, List.nodup_singleton k, by simpa using hmem⟩

theorem alGet_of_mem_nodup {α β : Type} [DecidableEq α] :
    ∀ {l : List (α × β)}, (alKeys l).Nodup →
      ∀ {p : α} {m : β}, (p, m) ∈ l → alGet p l = some m := by
  intro l
  induction l with
  | nil => intro _ p m hx; exact absurd hx (List.not_mem_nil _)
  | cons q t ih =>
    intro hnd p m hx
    obtain ⟨a, b⟩ := q
    rcases List.mem_cons.mp hx with he | ht
    · rw [Prod.mk.injEq] at he
      rw [alGet, if_pos he.1.symm, he.2]
    · by_cases hap : a = p
      · subst hap
        exfalso
        have hmem : a ∈ alKeys t := List.mem_map.mpr ⟨(a, m), ht, rfl⟩
        rw [alKeys_cons] at hnd
        exact (List.nodup_cons.mp hnd).1 hmem
      · rw [alGet, if_neg hap]
        rw [alKeys_cons] at hnd
        exact ih (List.nodup_cons.mp hnd).2 ht

/-! ### Deletion-stage lemmas -/

theorem load_fileMeta_erase (ps : List String)
    (fm : List (String × FileMetadata)) (d : String) :
    ps.filterMap (fun p => (alGet p (alErase d fm)).map (fun m => (p, m))) =
      alErase d (ps.filterMap (fun p => (alGet p fm).map (fun m => (p, m)))) := by
  induction ps with
  | nil => rfl
  | cons p ps ih =>
    by_cases hpd : p = d
    · subst hpd
      rw [List.filterMap_cons, List.filterMap_cons, alGet_alErase, if_pos rfl]
      cases hg : alGet p fm with
      | none => simpa using ih
      | some m =>
        simp only [Option.map_some']
        rw [alErase, if_pos rfl]
        exact ih
    · rw [List.filterMap_cons, List.filterMap_cons, alGet_alErase, if_neg hpd]
      cases hg : alGet p fm with
      | none => simpa using ih
      | some m =>
        simp only [Option.map_some']
        rw [alErase, if_neg hpd, ih]

theorem removeStep_records (d : String)
    (records : List (String × FileMetadata)) (store : Store) :
    (removeStep true (records, store) d).1 = alErase d records := by
  unfold removeStep removeFileFromIndex
  by_cases hp : (alGet d records).isSome
  · simp only [Bool.not_true, Bool.false_eq_true, if_false, hp, if_true]
    cases alGet d ({ store with fileMeta := alErase d store.fileMeta } : Store).fileChunks <;> rfl
  · simp only [Bool.not_true, Bool.false_eq_true, if_false, hp, if_false]
    have hnone : alGet d records = none := by
      cases hg : alGet d records
      · rfl
      · rw [hg] at hp
        exact absurd rfl hp
    cases alGet d store.fileChunks <;>
      exact (alErase_of_none hnone).symm

theorem removeStep_load (d : String)
    (records : List (String × FileMetadata)) (store : Store)
    (h : loadFileMetadata true [] store = records) :
    loadFileMetadata true [] (removeStep true (records, store) d).2 =
      alErase d records := by
  unfold removeStep removeFileFromIndex
  by_cases hp : (alGet d records).isSome
  · simp only [Bool.not_true, Bool.false_eq_true, if_false, hp, if_true]
    cases hfc : alGet d ({ store with fileMeta := alErase d store.fileMeta } : Store).fileChunks with
    | none =>
      simp only
      rw [← h]
      unfold loadFileMetadata
      simp only [Bool.not_true, Bool.false_eq_true, if_false]
      cases hfl : store.fileList with
      | none => rfl
      | some ps => exact load_fileMeta_erase ps store.fileMeta d
    | some ids =>
      simp only
      rw [← h]
      unfold loadFileMetadata
      simp only [Bool.not_true, Bool.false_eq_true, if_false]
      cases hfl : store.fileList with
      | none => rfl
      | some ps => exact load_fileMeta_erase ps store.fileMeta d
  · simp only [Bool.not_true, Bool.false_eq_true, if_false, hp, if_false]
    have hnone : alGet d records = none := by
      cases hg : alGet d records
      · rfl
      · rw [hg] at hp
        exact absurd rfl hp
    cases hfc : alGet d store.fileChunks with
    | none =>
      simp only
      rw [h]
      exact (alErase_of_none hnone).symm
    | some ids =>
      simp only
      unfold loadFileMetadata at h ⊢
      simp only [Bool.not_true, Bool.false_eq_true, if_false] at h ⊢
      cases hfl : store.fileList with
      | none =>
        rw [hfl] at h
        rw [← h]
        rfl
      | some ps =>
        rw [hfl] at h
        rw [h]
        exact (alErase_of_none hnone).symm

theorem removeFold_records :
    ∀ (ds : List String) (records : List (String × FileMetadata))
      (store : Store),
      (ds.foldl (removeStep true) (records, store)).1 =
        ds.foldl (fun r d => alErase d r) records := by
  intro ds
  induction ds with
  | nil => intro records store; rfl
  | cons d ds ih =>
    intro records store
    rw [List.foldl_cons, List.foldl_cons]
    have h1 : removeStep true (records, store) d =
        ((removeStep true (records, store) d).1,
         (removeStep true (records, store) d).2) := rfl
    rw [h1, ih, removeStep_records]

theorem removeFold_load :
    ∀ (ds : List String) (records : List (String × FileMetadata))
      (store : Store), loadFileMetadata true [] store = records →
      loadFileMetadata true []
          ((ds.foldl (removeStep true) (records, store)).2) =
        (ds.foldl (removeStep true) (records, store)).1 := by
  intro ds
  induction ds with
  | nil => intro records store h; exact h
  | cons d ds ih =>
    intro records store h
    rw [List.foldl_cons]
    have h1 : removeStep true (records, store) d =
        ((removeStep true (records, store) d).1,
         (removeStep true (records, store) d).2) := rfl
    rw [h1]
    apply ih
    rw [removeStep_records]
    exact removeStep_load d records store h

theorem eraseFold_get_not_mem :
    ∀ (ds : List String) (records : List (String × FileMetadata)) (p : String),
      p ∉ ds →
      alGet p (ds.foldl (fun r d => alErase d r) records) = alGet p records := by
  intro ds
  induction ds with
  | nil => intro records p _; rfl
  | cons d ds ih =>
    intro records p hp
    rw [List.foldl_cons,
      ih (alErase d records) p (fun h => hp (List.mem_cons.mpr (Or.inr h))),
      alGet_alErase, if_neg (fun h => hp (List.mem_cons.mpr (Or.inl h)))]

theorem eraseFold_get_some :
    ∀ (ds : List String) (records : List (String × FileMetadata))
      (p : String) (m : FileMetadata),
      alGet p (ds.foldl (fun r d => alErase d r) records) = some m →
      alGet p records = some m ∧ p ∉ ds := by
  intro ds
  induction ds with
  | nil => intro records p m h; exact ⟨h, List.not_mem_nil p⟩
  | cons d ds ih =>
    intro records p m h
    rw [List.foldl_cons] at h
    rcases ih (alErase d records) p m h with ⟨hg, hnm⟩
    rw [alGet_alErase] at hg
    by_cases hpd : p = d
    · rw [if_pos hpd] at hg
      cases hg
    · rw [if_neg hpd] at hg
      refine ⟨hg, fun hc => ?_⟩
      rcases List.mem_cons.mp hc with h | h
      · exact hpd h
      · exact hnm h

theorem eraseFold_nodup :
    ∀ (ds : List String) {records : List (String × FileMetadata)},
      (alKeys records).Nodup →
      (alKeys (ds.foldl (fun r d => alErase d r) records)).Nodup := by
  intro ds
  induction ds with
  | nil => intro records h; exact h
  | cons d ds ih =>
    intro records h
    rw [List.foldl_cons]
    exact ih (alKeys_alErase_nodup d h)

/-! ### Save/load round-trip lemmas -/

theorem saveFold_fileMeta :
    ∀ (records : List (String × FileMetadata)) (st : Store × BuildTrace),
      (records.foldl saveStep st).1.fileMeta =
        records.foldl (fun fm pm => alPut pm.1 pm.2 fm) st.1.fileMeta ∧
      (records.foldl saveStep st).1.fileList = st.1.fileList := by
  intro records
  induction records with
  | nil => intro st; exact ⟨rfl, rfl⟩
  | cons pm records ih =>
    intro st
    rw [List.foldl_cons, List.foldl_cons]
    exact ih (saveStep st pm)

theorem putFold_get_not_mem :
    ∀ (records : List (String × FileMetadata))
      (fm : List (String × FileMetadata)) (p : String), p ∉ alKeys records →
      alGet p (records.foldl (fun fm pm => alPut pm.1 pm.2 fm) fm) =
        alGet p fm := by
  intro records
  induction records with
  | nil => intro fm p _; rfl
  | cons pm records ih =>
    intro fm p hp
    rw [alKeys_cons] at hp
    rw [List.foldl_cons,
      ih _ p (fun h => hp (List.mem_cons.mpr (Or.inr h))),
      alGet_alPut, if_neg (fun h => hp (List.mem_cons.mpr (Or.inl h)))]

theorem putFold_get_self :
    ∀ (records : List (String × FileMetadata))
      (fm : List (String × FileMetadata)), (alKeys records).Nodup →
      ∀ (p : String) (m : FileMetadata), alGet p records = some m →
        alGet p (records.foldl (fun fm pm => alPut pm.1 pm.2 fm) fm) =
          some m := by
  intro records
  induction records with
  | nil => intro fm _ p m h; cases h
  | cons pm records ih =>
    intro fm hnd p m h
    obtain ⟨k0, m0⟩ := pm
    rw [alKeys_cons] at hnd
    rw [List.foldl_cons]
    rw [alGet] at h
    by_cases hk : k0 = p
    · rw [if_pos hk] at h
      cases h
      subst hk
      rw [putFold_get_not_mem records _ k0 (List.nodup_cons.mp hnd).1,
        alGet_alPut, if_pos rfl]
    · rw [if_neg hk] at h
      exact ih _ (List.nodup_cons.mp hnd).2 p m h

theorem filterMap_load_of_pointwise :
    ∀ (records : List (String × FileMetadata))
      (fm : List (String × FileMetadata)),
      (∀ pm ∈ records, alGet pm.1 fm = some pm.2) →
      (alKeys records).filterMap
        (fun p => (alGet p fm).map (fun m => (p, m))) = records := by
  intro records
  induction records with
  | nil => intro fm _; rfl
  | cons pm records ih =>
    intro fm h
    obtain ⟨k0, m0⟩ := pm
    rw [alKeys_cons, List.filterMap_cons,
      h (k0, m0) (List.mem_cons.mpr (Or.inl rfl))]
    simp only [Option.map_some']
    rw [ih fm (fun q hq => h q (List.mem_cons.mpr (Or.inr hq)))]

theorem save_load (records : List (String × FileMetadata)) (store : Store)
    (trace : BuildTrace) (hnd : (alKeys records).Nodup) :
    loadFileMetadata true []
      (saveFileMetadata true records store trace).1 = records := by
  unfold saveFileMetadata loadFileMetadata
  simp only [Bool.not_true, Bool.false_eq_true, if_false]
  rcases saveFold_fileMeta records (store, trace) with ⟨hfm, _⟩
  simp only [hfm]
  apply filterMap_load_of_pointwise
  intro pm hpm
  exact putFold_get_self records store.fileMeta hnd pm.1 pm.2
    (alGet_of_mem_nodup hnd hpm)

/-! ### Processing-stage lemmas -/

theorem procFold_get_ne (client : Bool) (embedFn : Chunk → Vec)
    (maxC overlap now : Nat) :
    ∀ (fsP : List FsFile)
      (acc : List (String × FileMetadata) × Store × BuildTrace) (p : String),
      (∀ f ∈ fsP, f.path ≠ p) →
      alGet p ((fsP.foldl (processFile client embedFn maxC overlap now) acc).1) =
        alGet p acc.1 := by
  intro fsP
  induction fsP with
  | nil => intro acc p _; rfl
  | cons f fsP ih =>
    intro acc p hne
    rw [List.foldl_cons,
      ih _ p (fun g hg => hne g (List.mem_cons.mpr (Or.inr hg)))]
    unfold processFile
    by_cases hch : (indexFile maxC overlap f.path f.text).isEmpty
    · rw [if_pos hch]
    · rw [if_neg hch]
      simp only
      rw [alGet_alPut,
        if_neg (fun h => hne f (List.mem_cons.mpr (Or.inl rfl)) h.symm)]

theorem procFold_get_self (client : Bool) (embedFn : Chunk → Vec)
    (maxC overlap now : Nat) :
    ∀ (fsP : List FsFile)
      (acc : List (String × FileMetadata) × Store × BuildTrace),
      (fsP.map (fun f => f.path)).Nodup →
      ∀ f ∈ fsP, (indexFile maxC overlap f.path f.text).isEmpty = false →
        alGet f.path
            ((fsP.foldl (processFile client embedFn maxC overlap now) acc).1) =
          some { getFileMetadata now f with
                 chunk_count := (indexFile maxC overlap f.path f.text).length } := by
  intro fsP
  induction fsP with
  | nil => intro acc _ f hf; exact absurd hf (List.not_mem_nil f)
  | cons f0 fsP ih =>
    intro acc hnd f hf hch
    rw [List.map_cons, List.nodup_cons] at hnd
    rcases List.mem_cons.mp hf with rfl | hft
    · rw [List.foldl_cons]
      have hne : ∀ g ∈ fsP, g.path ≠ f.path := by
        intro g hg he
        exact hnd.1 (he ▸ List.mem_map_of_mem (fun x => x.path) hg)
      rw [procFold_get_ne client embedFn maxC overlap now fsP _ f.path hne]
      unfold processFile
      rw [if_neg (by rw [hch]; exact Bool.false_ne_true)]
      simp only
      rw [alGet_alPut, if_pos rfl]
    · rw [List.foldl_cons]
      exact ih _ hnd.2 f hft hch

theorem procFold_get_isSome (client : Bool) (embedFn : Chunk → Vec)
    (maxC overlap now : Nat) :
    ∀ (fsP : List FsFile)
      (acc : List (String × FileMetadata) × Store × BuildTrace) (p : String),
      (alGet p
          ((fsP.foldl (processFile client embedFn maxC overlap now) acc).1)).isSome
          = true →
      (alGet p acc.1).isSome = true ∨ ∃ f, f ∈ fsP ∧ f.path = p := by
  intro fsP
  induction fsP with
  | nil => intro acc p h; exact Or.inl h
  | cons f0 fsP ih =>
    intro acc p h
    rw [List.foldl_cons] at h
    rcases ih _ p h with h1 | ⟨f, hf, hfp⟩
    · unfold processFile at h1
      by_cases hch : (indexFile maxC overlap f0.path f0.text).isEmpty
      · rw [if_pos hch] at h1
        exact Or.inl h1
      · rw [if_neg hch] at h1
        simp only at h1
        rw [alGet_alPut] at h1
        by_cases hp0 : p = f0.path
        · exact Or.inr ⟨f0, List.mem_cons.mpr (Or.inl rfl), hp0.symm⟩
        · rw [if_neg hp0] at h1
          exact Or.inl h1
    · exact Or.inr ⟨f, List.mem_cons.mpr (Or.inr hf), hfp⟩

theorem procFold_nodup (client : Bool) (embedFn : Chunk → Vec)
    (maxC overlap now : Nat) :
    ∀ (fsP : List FsFile)
      (acc : List (String × FileMetadata) × Store × BuildTrace),
      (alKeys acc.1).Nodup →
      (alKeys
        ((fsP.foldl (processFile client embedFn maxC overlap now) acc).1)).Nodup := by
  intro fsP
  induction fsP with
  | nil => intro acc h; exact h
  | cons f0 fsP ih =>
    intro acc h
    rw [List.foldl_cons]
    apply ih
    unfold processFile
    by_cases hch : (indexFile maxC overlap f0.path f0.text).isEmpty
    · rw [if_pos hch]
      exact h
    · rw [if_neg hch]
      simp only
      exact alKeys_alPut_nodup _ _ h

/-! ### Change-set and build-level lemmas -/

theorem getChangedFiles_newFiles (fs : List FsFile)
    (records : List (String × FileMetadata)) :
    (getChangedFiles fs records).newFiles =
      fs.filter (fun f => (alGet f.path records).isNone) := by
  show (scanFiles records fs).1 = _
  rw [scanFiles, scanFiles_spec]
  simp

theorem getChangedFiles_modifiedFiles (fs : List FsFile)
    (records : List (String × FileMetadata)) :
    (getChangedFiles fs records).modifiedFiles =
      fs.filter (trackedModified records) := by
  show (scanFiles records fs).2.1 = _
  rw [scanFiles, scanFiles_spec]
  simp

theorem getChangedFiles_deletedPaths (fs : List FsFile)
    (records : List (String × FileMetadata)) :
    (getChangedFiles fs records).deletedPaths =
      (alKeys records).filter (fun p => !fs.any (fun f => f.path == p)) := rfl

theorem loadFileMetadata_true_any (cur : List (String × FileMetadata))
    (store : Store) :
    loadFileMetadata true cur store = loadFileMetadata true [] store := rfl

/-- Definitional shape of a connected, non-forced `build`. -/
theorem build_def (embedFn : Chunk → Vec) (maxC overlap now : Nat)
    (fs : List FsFile) (st : IndexerState) (store : Store) :
    build true embedFn maxC overlap now fs st store false =
      (let records1 := loadFileMetadata true [] store
       let ch := getChangedFiles fs records1
       let rs := ch.deletedPaths.foldl (removeStep true) (records1, store)
       if (ch.newFiles ++ ch.modifiedFiles).isEmpty then
         ⟨rs.1, rs.2, ⟨if !st.embedderLoaded then 1 else 0, 0⟩,
          st.embedderLoaded || true, true⟩
       else
         let pr := (ch.newFiles ++ ch.modifiedFiles).foldl
           (processFile true embedFn maxC overlap now)
           (rs.1, rs.2, ⟨if !st.embedderLoaded then 1 else 0, 0⟩)
         let sv := saveFileMetadata true pr.1 pr.2.1 pr.2.2
         ⟨pr.1, sv.1, sv.2, st.embedderLoaded || true, true⟩) := rfl

/-- When every scanned file is tracked and fingerprint-unchanged, and every
record belongs to a scanned file, a connected incremental `build` is a no-op:
the records stay as loaded and the build performs zero embedding calls and
zero store writes. -/
theorem build_no_changes (embedFn : Chunk → Vec) (maxC overlap now : Nat)
    (fs : List FsFile) (st : IndexerState) (store : Store)
    (hload : ∀ f ∈ fs, ∃ m,
      alGet f.path (loadFileMetadata true [] store) = some m ∧
        fileModified m f = false)
    (hkeys : ∀ p, (alGet p (loadFileMetadata true [] store)).isSome = true →
      fs.any (fun f => f.path == p) = true)
    (hemb : st.embedderLoaded = true) :
    (build true embedFn maxC overlap now fs st store false).records =
      loadFileMetadata true [] store ∧
    (build true embedFn maxC overlap now fs st store false).trace = ⟨0, 0⟩ := by
  rw [build_def]
  have hnew : (getChangedFiles fs (loadFileMetadata true [] store)).newFiles
      = [] := by
    rw [getChangedFiles_newFiles]
    rw [List.filter_eq_nil_iff]
    intro f hf
    rcases hload f hf with ⟨m, hm, _⟩
    rw [hm]
    simp
  have hmod : (getChangedFiles fs
      (loadFileMetadata true [] store)).modifiedFiles = [] := by
    rw [getChangedFiles_modifiedFiles]
    rw [List.filter_eq_nil_iff]
    intro f hf
    rcases hload f hf with ⟨m, hm, hmf⟩
    unfold trackedModified
    rw [hm]
    simp [hmf]
  have hdel : (getChangedFiles fs
      (loadFileMetadata true [] store)).deletedPaths = [] := by
    rw [getChangedFiles_deletedPaths]
    rw [List.filter_eq_nil_iff]
    intro p hp
    rw [hkeys p ((alGet_isSome_iff_mem p _).mpr hp)]
    simp
  simp only [hnew, hmod, hdel, List.nil_append, List.foldl_nil,
    List.isEmpty_nil, if_true, hemb, Bool.not_true]
  constructor <;> trivial

theorem load_keys (ps : List String) (fm : List (String × FileMetadata)) :
    alKeys (ps.filterMap (fun p => (alGet p fm).map (fun m => (p, m)))) =
      ps.filter (fun p => (alGet p fm).isSome) := by
  induction ps with
  | nil => rfl
  | cons p ps ih =>
    rw [List.filterMap_cons, List.filter_cons]
    cases hg : alGet p fm with
    | none => simpa using ih
    | some m =>
      simp only [Option.map_some', Option.isSome_some, if_true]
      rw [alKeys_cons, ih]

theorem load_nodup (store : Store)
    (hwf : ∀ ps, store.fileList = some ps → ps.Nodup) :
    (alKeys (loadFileMetadata true [] store)).Nodup := by
  unfold loadFileMetadata
  simp only [Bool.not_true, Bool.false_eq_true, if_false]
  cases hfl : store.fileList with
  | none => exact List.nodup_nil
  | some ps =>
    rw [load_keys]
    exact (hwf ps hfl).filter _

/-- Embeds `build` with a connection always leaves the embedder loaded. -/
theorem build_embedderLoaded (embedFn : Chunk → Vec)
    (maxC overlap now : Nat) (fs : List FsFile) (st : IndexerState)
    (store : Store) :
    (build true embedFn maxC overlap now fs st store false).embedderLoaded =
      true := by
  rw [build_def]
  by_cases hemp : ((getChangedFiles fs
      (loadFileMetadata true [] store)).newFiles ++
      (getChangedFiles fs (loadFileMetadata true [] store)).modifiedFiles).isEmpty
  · simp only [hemp, if_true, Bool.or_true]
  · simp only [hemp, Bool.false_eq_true, if_false, Bool.or_true]

/-- A file of the scanned tree is never among the deleted paths. -/
theorem path_not_deleted (fs : List FsFile)
    (records : List (String × FileMetadata)) {f : FsFile} (hf : f ∈ fs) :
    f.path ∉ (getChangedFiles fs records).deletedPaths := by
  rw [getChangedFiles_deletedPaths]
  intro hmem
  have := (List.mem_filter.mp hmem).2
  have hany : fs.any (fun g => g.path == f.path) = true :=
    List.any_eq_true.mpr ⟨f, hf, by simp⟩
  rw [hany] at this
  cases this

theorem build_postcondition (embedFn : Chunk → Vec) (maxC overlap now : Nat)
    (fs : List FsFile) (st : IndexerState) (store : Store)
    (hnd : (fs.map (fun f => f.path)).Nodup)
    (hwf : ∀ ps, store.fileList = some ps → ps.Nodup)
    (hch : ∀ f ∈ fs, (indexFile maxC overlap f.path f.text).isEmpty = false) :
    BuildPost fs (build true embedFn maxC overlap now fs st store false) := by
  have hnodup0 : (alKeys (loadFileMetadata true [] store)).Nodup :=
    load_nodup store hwf
  have hload0 : loadFileMetadata true [] store =
      loadFileMetadata true [] store := rfl
  have hemb := build_embedderLoaded embedFn maxC overlap now fs st store
  rw [build_def] at hemb ⊢
  set records0 := loadFileMetadata true [] store with hrec0
  set ch := getChangedFiles fs records0 with hchdef
  set rs := ch.deletedPaths.foldl (removeStep true) (records0, store) with hrsdef
  have hrs1 : rs.1 = ch.deletedPaths.foldl (fun r d => alErase d r) records0 := by
    rw [hrsdef]
    exact removeFold_records ch.deletedPaths records0 store
  have hrsload : loadFileMetadata true [] rs.2 = rs.1 := by
    rw [hrsdef]
    exact removeFold_load ch.deletedPaths records0 store rfl
  have hrsnodup : (alKeys rs.1).Nodup := by
    rw [hrs1]
    exact eraseFold_nodup ch.deletedPaths hnodup0
  have hrsget : ∀ f ∈ fs, alGet f.path rs.1 = alGet f.path records0 := by
    intro f hf
    rw [hrs1]
    exact eraseFold_get_not_mem ch.deletedPaths records0 f.path
      (path_not_deleted fs records0 hf)
  have hrskeys : ∀ p, (alGet p rs.1).isSome = true →
      fs.any (fun g => g.path == p) = true := by
    intro p hp
    rw [hrs1] at hp
    rcases Option.isSome_iff_exists.mp hp with ⟨m, hm⟩
    rcases eraseFold_get_some ch.deletedPaths records0 p m hm with ⟨hg, hnm⟩
    by_contra hc
    apply hnm
    rw [hchdef, getChangedFiles_deletedPaths]
    refine List.mem_filter.mpr ⟨(alGet_isSome_iff_mem p records0).mp ?_, ?_⟩
    · rw [hg]; rfl
    · rw [Bool.not_eq_true] at hc
      rw [hc]
      rfl
  by_cases hemp : (ch.newFiles ++ ch.modifiedFiles).isEmpty
  · rw [if_pos hemp]
    have hboth := List.append_eq_nil.mp (List.isEmpty_iff.mp hemp)
    have hnewnil : fs.filter (fun f => (alGet f.path records0).isNone) = [] := by
      rw [← getChangedFiles_newFiles fs records0, ← hchdef]
      exact hboth.1
    have hmodnil : fs.filter (trackedModified records0) = [] := by
      rw [← getChangedFiles_modifiedFiles fs records0, ← hchdef]
      exact hboth.2
    refine ⟨?_, hrskeys, hrsnodup, hrsload, Bool.or_true _⟩
    intro f hf
    have hnotnew : ¬((alGet f.path records0).isNone = true) := by
      intro hcon
      have : f ∈ fs.filter (fun f => (alGet f.path records0).isNone) :=
        List.mem_filter.mpr ⟨hf, hcon⟩
      rw [hnewnil] at this
      exact absurd this (List.not_mem_nil f)
    have hnotmod : ¬(trackedModified records0 f = true) := by
      intro hcon
      have : f ∈ fs.filter (trackedModified records0) :=
        List.mem_filter.mpr ⟨hf, hcon⟩
      rw [hmodnil] at this
      exact absurd this (List.not_mem_nil f)
    rcases hgf : alGet f.path records0 with _ | m
    · rw [hgf] at hnotnew
      exact absurd rfl hnotnew
    · refine ⟨m, by rw [hrsget f hf, hgf], ?_⟩
      unfold trackedModified at hnotmod
      rw [hgf] at hnotmod
      simp only at hnotmod
      exact Bool.not_eq_true _ ▸ hnotmod
  · rw [if_neg hemp]
    simp only
    set fsP := ch.newFiles ++ ch.modifiedFiles with hfsP
    set pr := fsP.foldl (processFile true embedFn maxC overlap now)
      (rs.1, rs.2, (⟨if !st.embedderLoaded then 1 else 0, 0⟩ : BuildTrace))
      with hprdef
    have hnewf : ch.newFiles = fs.filter (fun f => (alGet f.path records0).isNone) := by
      rw [hchdef]; exact getChangedFiles_newFiles fs records0
    have hmodf : ch.modifiedFiles = fs.filter (trackedModified records0) := by
      rw [hchdef]; exact getChangedFiles_modifiedFiles fs records0
    have hsubP : ∀ f ∈ fsP, f ∈ fs := by
      intro f hf
      rw [hfsP] at hf
      rcases List.mem_append.mp hf with h | h
      · rw [hnewf] at h
        exact (List.mem_filter.mp h).1
      · rw [hmodf] at h
        exact (List.mem_filter.mp h).1
    have hpathinj : ∀ f ∈ fs, ∀ g ∈ fs, f.path = g.path → f = g := by
      intro f hf g hg he
      exact List.inj_on_of_nodup_map hnd hf hg he
    have hndP : (fsP.map (fun f => f.path)).Nodup := by
      rw [hfsP, List.map_append, List.nodup_append]
      refine ⟨?_, ?_, ?_⟩
      · rw [hnewf]
        exact hnd.sublist
          (List.Sublist.map (fun f => f.path) (List.filter_sublist fs))
      · rw [hmodf]
        exact hnd.sublist
          (List.Sublist.map (fun f => f.path) (List.filter_sublist fs))
      · intro p hp1 hp2
        rcases List.mem_map.mp hp1 with ⟨f, hfmem, rfl⟩
        rcases List.mem_map.mp hp2 with ⟨g, hgmem, hge⟩
        rw [hnewf] at hfmem
        rw [hmodf] at hgmem
        have hfg : f = g :=
          hpathinj f (List.mem_filter.mp hfmem).1 g
            (List.mem_filter.mp hgmem).1 hge.symm
        have h1 := (List.mem_filter.mp hfmem).2
        have h2 := (List.mem_filter.mp hgmem).2
        rw [← hfg] at h2
        unfold trackedModified at h2
        rcases hgf : alGet f.path records0 with _ | m
        · rw [hgf] at h2
          simp at h2
        · rw [hgf] at h1
          simp at h1
    refine ⟨?_, ?_, ?_, ?_, Bool.or_true _⟩
    · intro f hf
      by_cases hmemP : f ∈ fsP
      · refine ⟨{ getFileMetadata now f with
          chunk_count := (indexFile maxC overlap f.path f.text).length }, ?_, ?_⟩
        · rw [hprdef]
          exact procFold_get_self true embedFn maxC overlap now fsP _ hndP f
            hmemP (hch f hf)
        · simp [fileModified, getFileMetadata]
      · have hne : ∀ g ∈ fsP, g.path ≠ f.path := by
          intro g hg he
          exact hmemP ((hpathinj g (hsubP g hg) f hf he) ▸ hg)
        have hget : alGet f.path pr.1 = alGet f.path records0 := by
          rw [hprdef,
            procFold_get_ne true embedFn maxC overlap now fsP _ f.path hne]
          exact hrsget f hf
        have hnotnew : f ∉ ch.newFiles := fun hc => hmemP (by
          rw [hfsP]; exact List.mem_append.mpr (Or.inl hc))
        have hnotmod : f ∉ ch.modifiedFiles := fun hc => hmemP (by
          rw [hfsP]; exact List.mem_append.mpr (Or.inr hc))
        rw [hnewf] at hnotnew
        rw [hmodf] at hnotmod
        rcases hgf : alGet f.path records0 with _ | m
        · exfalso
          apply hnotnew
          refine List.mem_filter.mpr ⟨hf, ?_⟩
          rw [hgf]
          rfl
        · refine ⟨m, by rw [hget, hgf], ?_⟩
          by_contra hcon
          apply hnotmod
          refine List.mem_filter.mpr ⟨hf, ?_⟩
          unfold trackedModified
          rw [hgf]
          simp only
          cases hmb : fileModified m f
          · exact (hcon hmb).elim
          · rfl
    · intro p hp
      rw [hprdef] at hp
      rcases procFold_get_isSome true embedFn maxC overlap now fsP _ p hp
        with h1 | ⟨f, hfP, hfp⟩
      · exact hrskeys p h1
      · exact List.any_eq_true.mpr ⟨f, hsubP f hfP, by rw [hfp]; simp⟩
    · rw [hprdef]
      exact procFold_nodup true embedFn maxC overlap now fsP _ hrsnodup
    · have hnodpr : (alKeys pr.1).Nodup := by
        rw [hprdef]
        exact procFold_nodup true embedFn maxC overlap now fsP _ hrsnodup
      exact save_load pr.1 pr.2.1 pr.2.2 hnodpr

/-- C2 (amended).  Provided every scanned file yields at least one chunk
(readable, non-whitespace content), running a connected
`build(force_rebuild=False)` twice in a row with no filesystem change leaves
the FileRecord map identical after the second call, and the second call
performs zero embedding calls and zero store writes.  (A file yielding zero
chunks breaks the store-write half: see the counterexample theorem.) -/
theorem c2_second_build_idempotent (embedFn : Chunk → Vec)
    (maxC overlap now1 now2 : Nat) (fs : List FsFile) (st0 : IndexerState)
    (store0 : Store)
    (hnd : (fs.map (fun f => f.path)).Nodup)
    (hwf : ∀ ps, store0.fileList = some ps → ps.Nodup)
    (hch : ∀ f ∈ fs, (indexFile maxC overlap f.path f.text).isEmpty = false) :
    (build true embedFn maxC overlap now2 fs
        ⟨(build true embedFn maxC overlap now1 fs st0 store0 false).records,
         (build true embedFn maxC overlap now1 fs st0 store0 false).embedderLoaded,
         (build true embedFn maxC overlap now1 fs st0 store0 false).client⟩
        (build true embedFn maxC overlap now1 fs st0 store0 false).store
        false).records =
      (build true embedFn maxC overlap now1 fs st0 store0 false).records ∧
    (build true embedFn maxC overlap now2 fs
        ⟨(build true embedFn maxC overlap now1 fs st0 store0 false).records,
         (build true embedFn maxC overlap now1 fs st0 store0 false).embedderLoaded,
         (build true embedFn maxC overlap now1 fs st0 store0 false).client⟩
        (build true embedFn maxC overlap now1 fs st0 store0 false).store
        false).trace = ⟨0, 0⟩ := by
  rcases build_postcondition embedFn maxC overlap now1 fs st0 store0 hnd hwf hch
    with ⟨hall, hkeys, _, hloadR, hembR⟩
  have h2 := build_no_changes embedFn maxC overlap now2 fs
    ⟨(build true embedFn maxC overlap now1 fs st0 store0 false).records,
     (build true embedFn maxC overlap now1 fs st0 store0 false).embedderLoaded,
     (build true embedFn maxC overlap now1 fs st0 store0 false).client⟩
    (build true embedFn maxC overlap now1 fs st0 store0 false).store
    (by rw [hloadR]; exact hall)
    (by rw [hloadR]; exact hkeys)
    hembR
  rw [hloadR] at h2
  exact h2

/-- C2 counterexample.  With a whitespace-only code file in the tree
(an empty `__init__.py`, say), the file yields zero chunks, never gets a
FileRecord, and is re-classified as *new* on every build; the second build
therefore re-runs the processing loop and re-saves the metadata map — one
store write (the `file_metadata_list` put) instead of the claimed zero.
The FileRecord map is still identical and no embedding call occurs. -/
theorem c2_zero_chunk_file_causes_writes :
    c2WsBuild2.records = c2WsBuild1.records ∧
    c2WsBuild2.trace.embedCalls = 0 ∧
    c2WsBuild2.trace.storeWrites = 1 := by
  decide

/-- C2 witness for the amended theorem, at a concrete one-file tree. -/
theorem c2_second_build_idempotent_witness :
    (build true (fun _ => [1]) 1600 200 10 c2GoodFs
        ⟨c2GoodBuild1.records, c2GoodBuild1.embedderLoaded,
         c2GoodBuild1.client⟩ c2GoodBuild1.store false).records =
      c2GoodBuild1.records ∧
    (build true (fun _ => [1]) 1600 200 10 c2GoodFs
        ⟨c2GoodBuild1.records, c2GoodBuild1.embedderLoaded,
         c2GoodBuild1.client⟩ c2GoodBuild1.store false).trace = ⟨0, 0⟩ :=
  c2_second_build_idempotent (fun _ => [1]) 1600 200 9 10 c2GoodFs
    ⟨[], false, false⟩ ⟨[], none, [], [], []⟩ (by decide)
    (by intro ps h; cases h) (by decide)
